import Mathlib

set_option maxRecDepth 10000

/-!
# Verification of the ai_news ingestion/deduplication/chunking core

This file gives a shallow embedding, over `List Char`, of the algorithmic
core of the repository:

* `src/telegram_sender.py`: `_split_message` and `_close_open_tags`
  (the Chunker and its markup repair);
* `src/news_fetcher.py`: `_normalize` and `_deduplicate`, together with the
  part of `difflib.SequenceMatcher` they use (`find_longest_match`,
  `get_matching_blocks`, `ratio`);
* `src/summarizer.py`: `summarize_batch` and `_summarize_extractive`.

Python strings are modelled as `List Char` (a Python `str` is a sequence of
Unicode code points).  Python `float` arithmetic on similarity ratios is
modelled with exact rationals `ℚ`; every concrete ratio appearing in a
theorem below is a dyadic (or small-denominator) rational that IEEE doubles
represent and compare exactly, so the modelled comparisons agree with the
source's float comparisons on those inputs.

Recursive scanners that are not structurally recursive are written with an
explicit fuel parameter (always instantiated with the input length, which is
a strict bound on the number of characters consumed), so that every
definition is kernel-reducible.
-/

/-! ## Basic string model -/

/-- Convert a Lean string literal to the `List Char` model of a Python `str`. -/
def str (s : String) : List Char := s.data

/-- The block separator `"\n\n"` on which `_split_message` splits
(`text.split("\n\n")`). -/
def nn : List Char := ['\n', '\n']

/-- Scanner for `pySplit`: accumulates the current block (in reverse) and
splits at each leftmost non-overlapping occurrence of `"\n\n"`, exactly like
Python's `text.split("\n\n")`. -/
def pySplitAux (acc : List Char) : List Char → List (List Char)
  | [] => [acc.reverse]
  | [c] => [(c :: acc).reverse]
  | c1 :: c2 :: rest =>
    if c1 = '\n' ∧ c2 = '\n' then acc.reverse :: pySplitAux [] rest
    else pySplitAux (c1 :: acc) (c2 :: rest)

/-- Python's `text.split("\n\n")` from `_split_message`. -/
def pySplit (text : List Char) : List (List Char) := pySplitAux [] text

/-- Join blocks with the `"\n\n"` separator (inverse of `pySplit`). -/
def joinNN : List (List Char) → List Char
  | [] => []
  | [x] => x
  | x :: y :: rest => x ++ nn ++ joinNN (y :: rest)

theorem pySplitAux_ne_nil (acc s : List Char) : pySplitAux acc s ≠ [] := by
  induction acc, s using pySplitAux.induct with
  | case1 acc => simp [pySplitAux]
  | case2 acc c => simp [pySplitAux]
  | case3 acc c1 c2 rest h ih => simp only [pySplitAux, if_pos h]; simp
  | case4 acc c1 c2 rest h ih => simp only [pySplitAux, if_neg h]; exact ih

theorem joinNN_cons (x : List Char) (l : List (List Char)) (hl : l ≠ []) :
    joinNN (x :: l) = x ++ nn ++ joinNN l := by
  cases l with
  | nil => exact absurd rfl hl
  | cons y rest => rfl

theorem joinNN_pySplitAux (acc s : List Char) :
    joinNN (pySplitAux acc s) = acc.reverse ++ s := by
  induction acc, s using pySplitAux.induct with
  | case1 acc => simp [pySplitAux, joinNN]
  | case2 acc c => simp [pySplitAux, joinNN]
  | case3 acc c1 c2 rest h ih =>
    obtain ⟨h1, h2⟩ := h
    subst h1; subst h2
    rw [pySplitAux, if_pos ⟨rfl, rfl⟩,
        joinNN_cons _ _ (pySplitAux_ne_nil [] rest), ih]
    simp [nn]
  | case4 acc c1 c2 rest h ih =>
    rw [pySplitAux, if_neg h, ih]
    simp

/-- Joining the blocks of `pySplit` with `"\n\n"` recovers the text. -/
theorem joinNN_pySplit (s : List Char) : joinNN (pySplit s) = s := by
  simpa using joinNN_pySplitAux [] s

/-! ## `_close_open_tags` (src/telegram_sender.py, lines 122–132)

```python
def _close_open_tags(text: str) -> str:
    # (the function first does: import re)
    for tag in ("i", "b", "a"):
        open_count = len(re.findall(rf"<{tag}[ >]", text)) + text.count(f"<{tag}>")
        close_count = text.count(f"</{tag}>")
        # Deduplicate the <tag> and <tag > counts
        open_count = len(re.findall(rf"<{tag}(?:\s[^>]*)?>", text))
        if open_count > close_count:
            text += f"</{tag}>" * (open_count - close_count)
    return text
```

The first `open_count` assignment is dead code (immediately overwritten), so
only the regex count matters.  `re.findall` counts leftmost, non-overlapping
matches; a match of `<tag(?:\s[^>]*)?>` at position `p` is either the literal
`<tag>` or `<tag` followed by a whitespace character and then everything up
to (and including) the first later `>`; when no `>` follows, the attempt
fails and scanning resumes at `p + 1`.  `str.count` counts leftmost
non-overlapping literal occurrences.
-/

/-- Python's `\s` on ASCII input (space, tab, newline, carriage return,
vertical tab, form feed). -/
def pyWs (c : Char) : Bool :=
  c = ' ' ∨ c = '\t' ∨ c = '\n' ∨ c = '\r' ∨ c = '\x0b' ∨ c = '\x0c'

/-- Drop characters up to and including the first `'>'`; `none` when there is
no `'>'` (the regex `[^>]*>` then fails to match). -/
def findGt : List Char → Option (List Char)
  | [] => none
  | c :: rest => if c = '>' then some rest else findGt rest

/-- Fuelled scanner counting leftmost non-overlapping matches of the Python
regex `<tag(?:\s[^>]*)?>`, as `re.findall` does.  The fuel strictly exceeds
the number of characters consumed, so `countOpenTagF s.length tag s` is the
exact count. -/
def countOpenTagF (tag : Char) : Nat → List Char → Nat
  | _, [] => 0
  | 0, _ :: _ => 0
  | f + 1, c :: rest =>
    if c = '<' then
      match rest with
      | [] => 0
      | t :: rest2 =>
        if t = tag then
          match rest2 with
          | [] => countOpenTagF tag f rest
          | d :: rest3 =>
            if d = '>' then 1 + countOpenTagF tag f rest3
            else if pyWs d then
              match findGt rest3 with
              | some rem => 1 + countOpenTagF tag f rem
              | none => countOpenTagF tag f rest
            else countOpenTagF tag f rest
        else countOpenTagF tag f rest
    else countOpenTagF tag f rest

/-- `len(re.findall(rf"<{tag}(?:\s[^>]*)?>", s))`. -/
def countOpen (tag : Char) (s : List Char) : Nat := countOpenTagF tag s.length s

/-- Fuelled scanner deciding whether the open-tag scan ever reaches a
`<tag` + whitespace start whose `[^>]*>` part runs off the end of the string
(a "dangling" attributed tag start).  Appending text containing `>` to such a
string can create a new regex match, which is the one situation in which
appending closing tags disturbs the open count. -/
def openDanglingF (tag : Char) : Nat → List Char → Bool
  | _, [] => false
  | 0, _ :: _ => false
  | f + 1, c :: rest =>
    if c = '<' then
      match rest with
      | [] => false
      | t :: rest2 =>
        if t = tag then
          match rest2 with
          | [] => openDanglingF tag f rest
          | d :: rest3 =>
            if d = '>' then openDanglingF tag f rest3
            else if pyWs d then
              match findGt rest3 with
              | some rem => openDanglingF tag f rem
              | none => true
            else openDanglingF tag f rest
        else openDanglingF tag f rest
    else openDanglingF tag f rest

/-- The open-tag scan for `tag` never runs off the end of `s` while looking
for the closing `>` of an attributed tag start. -/
def openDangling (tag : Char) (s : List Char) : Bool := openDanglingF tag s.length s

/-- Fuelled count of leftmost non-overlapping occurrences of `pat`
(Python's `s.count(pat)` for non-empty `pat`). -/
def countSubF (pat : List Char) : Nat → List Char → Nat
  | _, [] => 0
  | 0, _ :: _ => 0
  | f + 1, c :: rest =>
    if pat.isPrefixOf (c :: rest) then 1 + countSubF pat f ((c :: rest).drop pat.length)
    else countSubF pat f rest

/-- `s.count(pat)` for non-empty `pat`. -/
def countSub (pat : List Char) (s : List Char) : Nat := countSubF pat s.length s

/-- The literal closing tag `f"</{tag}>"`. -/
def closeTag (tag : Char) : List Char := ['<', '/', tag, '>']

/-- `f"</{tag}>" * n`. -/
def closeTags (tag : Char) : Nat → List Char
  | 0 => []
  | n + 1 => closeTag tag ++ closeTags tag n

/-- One iteration of the `for tag in ("i", "b", "a")` loop of
`_close_open_tags`. -/
def closeOneTag (tag : Char) (text : List Char) : List Char :=
  let openCount := countOpen tag text
  let closeCount := countSub (closeTag tag) text
  if closeCount < openCount then text ++ closeTags tag (openCount - closeCount)
  else text

/-- `_close_open_tags` from src/telegram_sender.py: repair tags `i`, `b`,
`a` in that order. -/
def closeOpenTags (text : List Char) : List Char :=
  ['i', 'b', 'a'].foldl (fun t tag => closeOneTag tag t) text

/-! ## `_split_message` (src/telegram_sender.py, lines 100–119)

```python
def _split_message(text: str, max_len: int) -> list[str]:
    chunks = text.split("\n\n")
    parts = []
    current = ""
    for chunk in chunks:
        candidate = (current + "\n\n" + chunk) if current else chunk
        if len(candidate) <= max_len:
            current = candidate
        else:
            if current:
                parts.append(_close_open_tags(current))
            current = chunk[:max_len]
    if current:
        parts.append(_close_open_tags(current))
    return parts or [text[:max_len]]
```

`splitGo` is the loop (plus final flush), parametrised by the repair
function `f` applied at each flush, so that the same definition with
`f = id` describes the segments *before* markup repair (`splitRaw`). -/

def splitGo (f : List Char → List Char) (maxLen : Nat) :
    List (List Char) → List Char → List (List Char) → List (List Char)
  | [], current, parts =>
    if current = [] then parts else parts ++ [f current]
  | chunk :: rest, current, parts =>
    if (if current = [] then chunk else current ++ nn ++ chunk).length ≤ maxLen then
      splitGo f maxLen rest (if current = [] then chunk else current ++ nn ++ chunk) parts
    else
      splitGo f maxLen rest (chunk.take maxLen)
        (if current = [] then parts else parts ++ [f current])

/-- `_split_message(text, max_len)` from src/telegram_sender.py. -/
def splitMessage (text : List Char) (maxLen : Nat) : List (List Char) :=
  let parts := splitGo closeOpenTags maxLen (pySplit text) [] []
  if parts = [] then [text.take maxLen] else parts

/-- The segments of `_split_message` *before* `_close_open_tags` is applied
at each flush (same loop with the repair function replaced by the
identity). -/
def splitRaw (text : List Char) (maxLen : Nat) : List (List Char) :=
  let parts := splitGo id maxLen (pySplit text) [] []
  if parts = [] then [text.take maxLen] else parts

/-- Concrete behaviour checks of the embedding, matching the observable
behaviour of `_split_message`/`_close_open_tags`. -/
theorem splitMessage_sample1 : splitMessage (str "<i>aaaaaaa\n\nbb") 10 =
    [str "<i>aaaaaaa</i>", str "bb"] := by decide

theorem splitMessage_sample2 :
    splitMessage (str "<i>x\n\ny</i>") 6 = [str "<i>x</i>", str "y</i>"] := by
  decide

theorem splitRaw_sample :
    splitRaw (str "<i>aaaaaaa\n\nbb") 10 = [str "<i>aaaaaaa", str "bb"] := by
  decide

/-- The dangling-tag pathology: the appended `"</b>"` completes the
unterminated `"<i "` start, creating a *new* open-tag match. -/
theorem closeOpenTags_dangling_sample :
    closeOpenTags (str "<b><i ") = str "<b><i </b>" := by decide


/-! ## Structural lemmas about the splitter loop -/

theorem splitGo_nil (f : List Char → List Char) (maxLen : Nat)
    (current : List Char) (parts : List (List Char)) :
    splitGo f maxLen [] current parts =
      if current = [] then parts else parts ++ [f current] := rfl

theorem splitGo_cons (f : List Char → List Char) (maxLen : Nat)
    (chunk : List Char) (rest : List (List Char)) (current : List Char)
    (parts : List (List Char)) :
    splitGo f maxLen (chunk :: rest) current parts =
      if (if current = [] then chunk else current ++ nn ++ chunk).length ≤ maxLen then
        splitGo f maxLen rest (if current = [] then chunk else current ++ nn ++ chunk) parts
      else
        splitGo f maxLen rest (chunk.take maxLen)
          (if current = [] then parts else parts ++ [f current]) := rfl

theorem splitGo_map (f : List Char → List Char) (maxLen : Nat) :
    ∀ (chunks : List (List Char)) (current : List Char)
      (parts : List (List Char)),
      splitGo f maxLen chunks current (parts.map f) =
        (splitGo id maxLen chunks current parts).map f := by
  intro chunks
  induction chunks with
  | nil =>
    intro current parts
    by_cases h : current = [] <;> simp [splitGo_nil, h]
  | cons chunk rest ih =>
    intro current parts
    rw [splitGo_cons, splitGo_cons]
    by_cases hl : (if current = [] then chunk else current ++ nn ++ chunk).length ≤ maxLen
    · rw [if_pos hl, if_pos hl, ih]
    · rw [if_neg hl, if_neg hl]
      by_cases h : current = []
      · rw [if_pos h, if_pos h, ih]
      · rw [if_neg h, if_neg h]
        have : parts.map f ++ [f current] = (parts ++ [current]).map f := by simp
        rw [this, ih]
        rfl

theorem splitGo_parts_prefix (f : List Char → List Char) (maxLen : Nat) :
    ∀ (chunks : List (List Char)) (current : List Char)
      (parts : List (List Char)),
      ∃ post, splitGo f maxLen chunks current parts = parts ++ post := by
  intro chunks
  induction chunks with
  | nil =>
    intro current parts
    by_cases h : current = []
    · exact ⟨[], by simp [splitGo_nil, h]⟩
    · exact ⟨[f current], by simp [splitGo_nil, h]⟩
  | cons chunk rest ih =>
    intro current parts
    rw [splitGo_cons]
    by_cases hl : (if current = [] then chunk else current ++ nn ++ chunk).length ≤ maxLen
    · rw [if_pos hl]
      exact ih _ parts
    · rw [if_neg hl]
      by_cases h : current = []
      · rw [if_pos h]
        exact ih _ parts
      · rw [if_neg h]
        obtain ⟨r, hr⟩ := ih (chunk.take maxLen) (parts ++ [f current])
        exact ⟨[f current] ++ r, by rw [hr, List.append_assoc]⟩

theorem splitGo_id_eq_nil (maxLen : Nat) :
    ∀ (chunks : List (List Char)) (current : List Char),
      splitGo id maxLen chunks current [] = [] →
      current = [] ∧ ∀ c ∈ chunks, c.take maxLen = [] := by
  intro chunks
  induction chunks with
  | nil =>
    intro current h
    rw [splitGo_nil] at h
    by_cases hc : current = []
    · exact ⟨hc, by simp⟩
    · rw [if_neg hc] at h
      simp at h
  | cons chunk rest ih =>
    intro current h
    rw [splitGo_cons] at h
    by_cases hl : (if current = [] then chunk else current ++ nn ++ chunk).length ≤ maxLen
    · rw [if_pos hl] at h
      obtain ⟨hcand, hrest⟩ := ih _ h
      by_cases hc : current = []
      · rw [if_pos hc] at hcand
        subst hcand
        refine ⟨hc, ?_⟩
        intro c hcm
        rcases List.mem_cons.1 hcm with rfl | hcm
        · simp
        · exact hrest c hcm
      · rw [if_neg hc] at hcand
        exact absurd hcand (by simp [nn, hc])
    · rw [if_neg hl] at h
      by_cases hc : current = []
      · rw [if_pos hc] at h
        obtain ⟨htake, hrest⟩ := ih _ h
        refine ⟨hc, ?_⟩
        intro c hcm
        rcases List.mem_cons.1 hcm with rfl | hcm
        · exact htake
        · exact hrest c hcm
      · rw [if_neg hc] at h
        obtain ⟨r, hr⟩ := splitGo_parts_prefix id maxLen rest (chunk.take maxLen)
          ([] ++ [id current])
        rw [hr] at h
        simp at h

theorem splitGo_id_length_le (maxLen : Nat) :
    ∀ (chunks : List (List Char)) (current : List Char)
      (parts : List (List Char)),
      current.length ≤ maxLen → (∀ p ∈ parts, p.length ≤ maxLen) →
      ∀ p ∈ splitGo id maxLen chunks current parts, p.length ≤ maxLen := by
  intro chunks
  induction chunks with
  | nil =>
    intro current parts hcur hparts p hp
    rw [splitGo_nil] at hp
    by_cases hc : current = []
    · rw [if_pos hc] at hp
      exact hparts p hp
    · rw [if_neg hc] at hp
      rcases List.mem_append.1 hp with h | h
      · exact hparts p h
      · simp at h
        subst h
        exact hcur
  | cons chunk rest ih =>
    intro current parts hcur hparts p hp
    rw [splitGo_cons] at hp
    by_cases hl : (if current = [] then chunk else current ++ nn ++ chunk).length ≤ maxLen
    · rw [if_pos hl] at hp
      exact ih _ parts hl hparts p hp
    · rw [if_neg hl] at hp
      by_cases hc : current = []
      · rw [if_pos hc] at hp
        refine ih _ parts ?_ hparts p hp
        simp [List.length_take]
      · rw [if_neg hc] at hp
        refine ih _ (parts ++ [id current]) ?_ ?_ p hp
        · simp [List.length_take]
        · intro q hq
          rcases List.mem_append.1 hq with h | h
          · exact hparts q h
          · simp at h
            subst h
            exact hcur

/-! ## Scanner equations for `countOpenTagF` and `openDanglingF`

One equation per branch of the scanners, followed by fuel-stability and the
"saturated" step equations for `countOpen`/`openDangling` (fuel equal to the
input length). -/

theorem findGt_some_length :
    ∀ (l rem : List Char), findGt l = some rem → rem.length < l.length := by
  intro l
  induction l with
  | nil => intro rem h; simp [findGt] at h
  | cons c rest ih =>
    intro rem h
    by_cases hc : c = '>'
    · simp only [findGt, if_pos hc] at h
      cases h
      simp
    · simp only [findGt, if_neg hc] at h
      exact Nat.lt_trans (ih rem h) (by simp)

theorem findGt_append_some (R : List Char) :
    ∀ (l rem : List Char), findGt l = some rem → findGt (l ++ R) = some (rem ++ R) := by
  intro l
  induction l with
  | nil => intro rem h; simp [findGt] at h
  | cons c rest ih =>
    intro rem h
    by_cases hc : c = '>'
    · simp only [findGt, if_pos hc] at h ⊢
      cases h
      rfl
    · simp only [findGt, if_neg hc] at h ⊢
      exact ih rem h

theorem cotF_other (tag : Char) (f : Nat) (c : Char) (rest : List Char)
    (hc : ¬c = '<') :
    countOpenTagF tag (f + 1) (c :: rest) = countOpenTagF tag f rest := by
  simp only [countOpenTagF, if_neg hc]

theorem cotF_lt_nil (tag : Char) (f : Nat) :
    countOpenTagF tag (f + 1) ['<'] = 0 := by
  simp [countOpenTagF]

theorem cotF_not_tag (tag : Char) (f : Nat) (t : Char) (rest2 : List Char)
    (ht : ¬t = tag) :
    countOpenTagF tag (f + 1) ('<' :: t :: rest2) =
      countOpenTagF tag f (t :: rest2) := by
  simp only [countOpenTagF, if_pos rfl, if_neg ht]
  simp

theorem cotF_tag_nil (tag : Char) (f : Nat) :
    countOpenTagF tag (f + 1) ['<', tag] = countOpenTagF tag f [tag] := by
  simp only [countOpenTagF, if_pos rfl]
  simp

theorem cotF_match_gt (tag : Char) (f : Nat) (rest3 : List Char) :
    countOpenTagF tag (f + 1) ('<' :: tag :: '>' :: rest3) =
      1 + countOpenTagF tag f rest3 := by
  simp only [countOpenTagF, if_pos rfl]
  simp

theorem cotF_ws_some (tag : Char) (f : Nat) (d : Char) (rest3 rem : List Char)
    (hd : ¬d = '>') (hws : pyWs d = true) (hfind : findGt rest3 = some rem) :
    countOpenTagF tag (f + 1) ('<' :: tag :: d :: rest3) =
      1 + countOpenTagF tag f rem := by
  simp only [countOpenTagF, if_pos rfl, if_neg hd, hws, if_pos rfl, hfind]
  simp

theorem cotF_ws_none (tag : Char) (f : Nat) (d : Char) (rest3 : List Char)
    (hd : ¬d = '>') (hws : pyWs d = true) (hfind : findGt rest3 = none) :
    countOpenTagF tag (f + 1) ('<' :: tag :: d :: rest3) =
      countOpenTagF tag f (tag :: d :: rest3) := by
  simp only [countOpenTagF, if_pos rfl, if_neg hd, hws, if_pos rfl, hfind]
  simp

theorem cotF_not_ws (tag : Char) (f : Nat) (d : Char) (rest3 : List Char)
    (hd : ¬d = '>') (hws : ¬pyWs d = true) :
    countOpenTagF tag (f + 1) ('<' :: tag :: d :: rest3) =
      countOpenTagF tag f (tag :: d :: rest3) := by
  simp only [countOpenTagF, if_pos rfl, if_neg hd, if_neg hws]
  simp

theorem odF_other (tag : Char) (f : Nat) (c : Char) (rest : List Char)
    (hc : ¬c = '<') :
    openDanglingF tag (f + 1) (c :: rest) = openDanglingF tag f rest := by
  simp only [openDanglingF, if_neg hc]

theorem odF_lt_nil (tag : Char) (f : Nat) :
    openDanglingF tag (f + 1) ['<'] = false := by
  simp [openDanglingF]

theorem odF_not_tag (tag : Char) (f : Nat) (t : Char) (rest2 : List Char)
    (ht : ¬t = tag) :
    openDanglingF tag (f + 1) ('<' :: t :: rest2) =
      openDanglingF tag f (t :: rest2) := by
  simp only [openDanglingF, if_pos rfl, if_neg ht]
  simp

theorem odF_tag_nil (tag : Char) (f : Nat) :
    openDanglingF tag (f + 1) ['<', tag] = openDanglingF tag f [tag] := by
  simp only [openDanglingF, if_pos rfl]
  simp

theorem odF_match_gt (tag : Char) (f : Nat) (rest3 : List Char) :
    openDanglingF tag (f + 1) ('<' :: tag :: '>' :: rest3) =
      openDanglingF tag f rest3 := by
  simp only [openDanglingF, if_pos rfl]
  simp

theorem odF_ws_some (tag : Char) (f : Nat) (d : Char) (rest3 rem : List Char)
    (hd : ¬d = '>') (hws : pyWs d = true) (hfind : findGt rest3 = some rem) :
    openDanglingF tag (f + 1) ('<' :: tag :: d :: rest3) =
      openDanglingF tag f rem := by
  simp only [openDanglingF, if_pos rfl, if_neg hd, hws, if_pos rfl, hfind]
  simp

theorem odF_ws_none (tag : Char) (f : Nat) (d : Char) (rest3 : List Char)
    (hd : ¬d = '>') (hws : pyWs d = true) (hfind : findGt rest3 = none) :
    openDanglingF tag (f + 1) ('<' :: tag :: d :: rest3) = true := by
  simp only [openDanglingF, if_pos rfl, if_neg hd, hws, if_pos rfl, hfind]
  simp

theorem odF_not_ws (tag : Char) (f : Nat) (d : Char) (rest3 : List Char)
    (hd : ¬d = '>') (hws : ¬pyWs d = true) :
    openDanglingF tag (f + 1) ('<' :: tag :: d :: rest3) =
      openDanglingF tag f (tag :: d :: rest3) := by
  simp only [openDanglingF, if_pos rfl, if_neg hd, if_neg hws]
  simp

theorem cotF_nil (tag : Char) (f : Nat) : countOpenTagF tag f [] = 0 := by
  cases f <;> rfl

theorem odF_nil (tag : Char) (f : Nat) : openDanglingF tag f [] = false := by
  cases f <;> rfl

theorem cotF_stable (tag : Char) :
    ∀ (f : Nat) (s : List Char), s.length ≤ f → ∀ g, s.length ≤ g →
      countOpenTagF tag f s = countOpenTagF tag g s := by
  intro f s
  induction f, s using countOpenTagF.induct tag with
  | case1 f => intro _ g _; rw [cotF_nil, cotF_nil]
  | case2 c rest => intro h _ _; simp at h
  | case3 f =>
    intro _ g hg
    simp only [List.length_cons, List.length_nil] at hg
    obtain ⟨g', rfl⟩ : ∃ g', g = g' + 1 := ⟨g - 1, by omega⟩
    rw [cotF_lt_nil, cotF_lt_nil]
  | case4 f ih =>
    intro hf g hg
    simp only [List.length_cons, List.length_nil] at hf hg
    obtain ⟨g', rfl⟩ : ∃ g', g = g' + 1 := ⟨g - 1, by omega⟩
    rw [cotF_tag_nil, cotF_tag_nil]
    exact ih (by simp; omega) g' (by simp; omega)
  | case5 f rest ih =>
    intro hf g hg
    simp only [List.length_cons] at hf hg
    obtain ⟨g', rfl⟩ : ∃ g', g = g' + 1 := ⟨g - 1, by omega⟩
    rw [cotF_match_gt, cotF_match_gt, ih (by omega) g' (by omega)]
  | case6 f d rest3 hd hws rem hfind ih =>
    intro hf g hg
    simp only [List.length_cons] at hf hg
    obtain ⟨g', rfl⟩ : ∃ g', g = g' + 1 := ⟨g - 1, by omega⟩
    rw [cotF_ws_some tag f d rest3 rem hd hws hfind,
        cotF_ws_some tag g' d rest3 rem hd hws hfind]
    have hlt := findGt_some_length rest3 rem hfind
    rw [ih (by omega) g' (by omega)]
  | case7 f d rest3 hd hws hfind ih =>
    intro hf g hg
    simp only [List.length_cons] at hf hg
    obtain ⟨g', rfl⟩ : ∃ g', g = g' + 1 := ⟨g - 1, by omega⟩
    rw [cotF_ws_none tag f d rest3 hd hws hfind,
        cotF_ws_none tag g' d rest3 hd hws hfind]
    exact ih (by simp; omega) g' (by simp; omega)
  | case8 f d rest3 hd hws ih =>
    intro hf g hg
    simp only [List.length_cons] at hf hg
    obtain ⟨g', rfl⟩ : ∃ g', g = g' + 1 := ⟨g - 1, by omega⟩
    rw [cotF_not_ws tag f d rest3 hd hws, cotF_not_ws tag g' d rest3 hd hws]
    exact ih (by simp; omega) g' (by simp; omega)
  | case9 f t rest2 ht ih =>
    intro hf g hg
    simp only [List.length_cons] at hf hg
    obtain ⟨g', rfl⟩ : ∃ g', g = g' + 1 := ⟨g - 1, by omega⟩
    rw [cotF_not_tag tag f t rest2 ht, cotF_not_tag tag g' t rest2 ht]
    exact ih (by simp; omega) g' (by simp; omega)
  | case10 f c rest hc ih =>
    intro hf g hg
    simp only [List.length_cons] at hf hg
    obtain ⟨g', rfl⟩ : ∃ g', g = g' + 1 := ⟨g - 1, by omega⟩
    rw [cotF_other tag f c rest hc, cotF_other tag g' c rest hc]
    exact ih (by omega) g' (by omega)

theorem odF_stable (tag : Char) :
    ∀ (f : Nat) (s : List Char), s.length ≤ f → ∀ g, s.length ≤ g →
      openDanglingF tag f s = openDanglingF tag g s := by
  intro f s
  induction f, s using openDanglingF.induct tag with
  | case1 f => intro _ g _; rw [odF_nil, odF_nil]
  | case2 c rest => intro h _ _; simp at h
  | case3 f =>
    intro _ g hg
    simp only [List.length_cons, List.length_nil] at hg
    obtain ⟨g', rfl⟩ : ∃ g', g = g' + 1 := ⟨g - 1, by omega⟩
    rw [odF_lt_nil, odF_lt_nil]
  | case4 f ih =>
    intro hf g hg
    simp only [List.length_cons, List.length_nil] at hf hg
    obtain ⟨g', rfl⟩ : ∃ g', g = g' + 1 := ⟨g - 1, by omega⟩
    rw [odF_tag_nil, odF_tag_nil]
    exact ih (by simp; omega) g' (by simp; omega)
  | case5 f rest ih =>
    intro hf g hg
    simp only [List.length_cons] at hf hg
    obtain ⟨g', rfl⟩ : ∃ g', g = g' + 1 := ⟨g - 1, by omega⟩
    rw [odF_match_gt, odF_match_gt, ih (by omega) g' (by omega)]
  | case6 f d rest3 hd hws rem hfind ih =>
    intro hf g hg
    simp only [List.length_cons] at hf hg
    obtain ⟨g', rfl⟩ : ∃ g', g = g' + 1 := ⟨g - 1, by omega⟩
    rw [odF_ws_some tag f d rest3 rem hd hws hfind,
        odF_ws_some tag g' d rest3 rem hd hws hfind]
    have hlt := findGt_some_length rest3 rem hfind
    rw [ih (by omega) g' (by omega)]
  | case7 f d rest3 hd hws hfind =>
    intro hf g hg
    simp only [List.length_cons] at hf hg
    obtain ⟨g', rfl⟩ : ∃ g', g = g' + 1 := ⟨g - 1, by omega⟩
    rw [odF_ws_none tag f d rest3 hd hws hfind,
        odF_ws_none tag g' d rest3 hd hws hfind]
  | case8 f d rest3 hd hws ih =>
    intro hf g hg
    simp only [List.length_cons] at hf hg
    obtain ⟨g', rfl⟩ : ∃ g', g = g' + 1 := ⟨g - 1, by omega⟩
    rw [odF_not_ws tag f d rest3 hd hws, odF_not_ws tag g' d rest3 hd hws]
    exact ih (by simp; omega) g' (by simp; omega)
  | case9 f t rest2 ht ih =>
    intro hf g hg
    simp only [List.length_cons] at hf hg
    obtain ⟨g', rfl⟩ : ∃ g', g = g' + 1 := ⟨g - 1, by omega⟩
    rw [odF_not_tag tag f t rest2 ht, odF_not_tag tag g' t rest2 ht]
    exact ih (by simp; omega) g' (by simp; omega)
  | case10 f c rest hc ih =>
    intro hf g hg
    simp only [List.length_cons] at hf hg
    obtain ⟨g', rfl⟩ : ∃ g', g = g' + 1 := ⟨g - 1, by omega⟩
    rw [odF_other tag f c rest hc, odF_other tag g' c rest hc]
    exact ih (by omega) g' (by omega)

theorem countOpen_nil (tag : Char) : countOpen tag [] = 0 := rfl

theorem countOpen_other (tag : Char) (c : Char) (rest : List Char)
    (hc : ¬c = '<') : countOpen tag (c :: rest) = countOpen tag rest := by
  simp only [countOpen, List.length_cons]
  exact cotF_other tag rest.length c rest hc

theorem countOpen_lt_nil (tag : Char) : countOpen tag ['<'] = 0 := by
  simp only [countOpen, List.length_cons, List.length_nil]
  exact cotF_lt_nil tag 0

theorem countOpen_not_tag (tag : Char) (t : Char) (rest2 : List Char)
    (ht : ¬t = tag) :
    countOpen tag ('<' :: t :: rest2) = countOpen tag (t :: rest2) := by
  simp only [countOpen, List.length_cons]
  exact cotF_not_tag tag (rest2.length + 1) t rest2 ht

theorem countOpen_tag_nil (tag : Char) :
    countOpen tag ['<', tag] = countOpen tag [tag] := by
  simp only [countOpen, List.length_cons, List.length_nil]
  exact cotF_tag_nil tag 1

theorem countOpen_match_gt (tag : Char) (rest3 : List Char) :
    countOpen tag ('<' :: tag :: '>' :: rest3) = 1 + countOpen tag rest3 := by
  simp only [countOpen, List.length_cons]
  rw [cotF_match_gt tag (rest3.length + 2) rest3]
  rw [cotF_stable tag (rest3.length + 2) rest3 (by omega) rest3.length (by omega)]

theorem countOpen_ws_some (tag : Char) (d : Char) (rest3 rem : List Char)
    (hd : ¬d = '>') (hws : pyWs d = true) (hfind : findGt rest3 = some rem) :
    countOpen tag ('<' :: tag :: d :: rest3) = 1 + countOpen tag rem := by
  have hlt := findGt_some_length rest3 rem hfind
  simp only [countOpen, List.length_cons]
  rw [cotF_ws_some tag (rest3.length + 2) d rest3 rem hd hws hfind]
  rw [cotF_stable tag (rest3.length + 2) rem (by omega) rem.length (by omega)]

theorem countOpen_ws_none (tag : Char) (d : Char) (rest3 : List Char)
    (hd : ¬d = '>') (hws : pyWs d = true) (hfind : findGt rest3 = none) :
    countOpen tag ('<' :: tag :: d :: rest3) = countOpen tag (tag :: d :: rest3) := by
  simp only [countOpen, List.length_cons]
  exact cotF_ws_none tag (rest3.length + 2) d rest3 hd hws hfind

theorem countOpen_not_ws (tag : Char) (d : Char) (rest3 : List Char)
    (hd : ¬d = '>') (hws : ¬pyWs d = true) :
    countOpen tag ('<' :: tag :: d :: rest3) = countOpen tag (tag :: d :: rest3) := by
  simp only [countOpen, List.length_cons]
  exact cotF_not_ws tag (rest3.length + 2) d rest3 hd hws

theorem openDangling_nil (tag : Char) : openDangling tag [] = false := rfl

theorem openDangling_other (tag : Char) (c : Char) (rest : List Char)
    (hc : ¬c = '<') : openDangling tag (c :: rest) = openDangling tag rest := by
  simp only [openDangling, List.length_cons]
  exact odF_other tag rest.length c rest hc

theorem openDangling_lt_nil (tag : Char) : openDangling tag ['<'] = false := by
  simp only [openDangling, List.length_cons, List.length_nil]
  exact odF_lt_nil tag 0

theorem openDangling_not_tag (tag : Char) (t : Char) (rest2 : List Char)
    (ht : ¬t = tag) :
    openDangling tag ('<' :: t :: rest2) = openDangling tag (t :: rest2) := by
  simp only [openDangling, List.length_cons]
  exact odF_not_tag tag (rest2.length + 1) t rest2 ht

theorem openDangling_tag_nil (tag : Char) :
    openDangling tag ['<', tag] = openDangling tag [tag] := by
  simp only [openDangling, List.length_cons, List.length_nil]
  exact odF_tag_nil tag 1

theorem openDangling_match_gt (tag : Char) (rest3 : List Char) :
    openDangling tag ('<' :: tag :: '>' :: rest3) = openDangling tag rest3 := by
  simp only [openDangling, List.length_cons]
  rw [odF_match_gt tag (rest3.length + 2) rest3]
  rw [odF_stable tag (rest3.length + 2) rest3 (by omega) rest3.length (by omega)]

theorem openDangling_ws_some (tag : Char) (d : Char) (rest3 rem : List Char)
    (hd : ¬d = '>') (hws : pyWs d = true) (hfind : findGt rest3 = some rem) :
    openDangling tag ('<' :: tag :: d :: rest3) = openDangling tag rem := by
  have hlt := findGt_some_length rest3 rem hfind
  simp only [openDangling, List.length_cons]
  rw [odF_ws_some tag (rest3.length + 2) d rest3 rem hd hws hfind]
  rw [odF_stable tag (rest3.length + 2) rem (by omega) rem.length (by omega)]

theorem openDangling_ws_none (tag : Char) (d : Char) (rest3 : List Char)
    (hd : ¬d = '>') (hws : pyWs d = true) (hfind : findGt rest3 = none) :
    openDangling tag ('<' :: tag :: d :: rest3) = true := by
  simp only [openDangling, List.length_cons]
  exact odF_ws_none tag (rest3.length + 2) d rest3 hd hws hfind

theorem openDangling_not_ws (tag : Char) (d : Char) (rest3 : List Char)
    (hd : ¬d = '>') (hws : ¬pyWs d = true) :
    openDangling tag ('<' :: tag :: d :: rest3) = openDangling tag (tag :: d :: rest3) := by
  simp only [openDangling, List.length_cons]
  exact odF_not_ws tag (rest3.length + 2) d rest3 hd hws

theorem csF_nil (pat : List Char) (f : Nat) : countSubF pat f [] = 0 := by
  cases f <;> rfl

theorem csF_pos (pat : List Char) (f : Nat) (c : Char) (rest : List Char)
    (h : pat.isPrefixOf (c :: rest) = true) :
    countSubF pat (f + 1) (c :: rest) =
      1 + countSubF pat f ((c :: rest).drop pat.length) := by
  simp only [countSubF, h]
  simp

theorem csF_neg (pat : List Char) (f : Nat) (c : Char) (rest : List Char)
    (h : ¬pat.isPrefixOf (c :: rest) = true) :
    countSubF pat (f + 1) (c :: rest) = countSubF pat f rest := by
  simp only [countSubF, h]
  simp

theorem csF_stable (pat : List Char) (hpat : pat ≠ []) :
    ∀ (f : Nat) (s : List Char), s.length ≤ f → ∀ g, s.length ≤ g →
      countSubF pat f s = countSubF pat g s := by
  intro f s
  induction f, s using countSubF.induct pat with
  | case1 f => intro _ g _; rw [csF_nil, csF_nil]
  | case2 c rest => intro h _ _; simp at h
  | case3 f c rest h ih =>
    intro hf g hg
    simp only [List.length_cons] at hf hg
    obtain ⟨g', rfl⟩ : ∃ g', g = g' + 1 := ⟨g - 1, by omega⟩
    rw [csF_pos pat f c rest h, csF_pos pat g' c rest h]
    have hlen : ((c :: rest).drop pat.length).length ≤ rest.length := by
      simp only [List.length_drop, List.length_cons]
      have : 1 ≤ pat.length := List.length_pos.2 hpat
      omega
    rw [ih (by omega) g' (by omega)]
  | case4 f c rest h ih =>
    intro hf g hg
    simp only [List.length_cons] at hf hg
    obtain ⟨g', rfl⟩ : ∃ g', g = g' + 1 := ⟨g - 1, by omega⟩
    rw [csF_neg pat f c rest h, csF_neg pat g' c rest h]
    exact ih (by omega) g' (by omega)

theorem countSub_nil (pat : List Char) : countSub pat [] = 0 := rfl

theorem countSub_pos (pat : List Char) (hpat : pat ≠ []) (c : Char)
    (rest : List Char) (h : pat.isPrefixOf (c :: rest) = true) :
    countSub pat (c :: rest) = 1 + countSub pat ((c :: rest).drop pat.length) := by
  have hlen : ((c :: rest).drop pat.length).length ≤ rest.length := by
    simp only [List.length_drop, List.length_cons]
    have : 1 ≤ pat.length := List.length_pos.2 hpat
    omega
  simp only [countSub, List.length_cons]
  rw [csF_pos pat rest.length c rest h]
  rw [csF_stable pat hpat rest.length _ (by omega) ((c :: rest).drop pat.length).length
      (by omega)]

theorem countSub_neg (pat : List Char) (c : Char) (rest : List Char)
    (h : ¬pat.isPrefixOf (c :: rest) = true) :
    countSub pat (c :: rest) = countSub pat rest := by
  simp only [countSub, List.length_cons]
  exact csF_neg pat rest.length c rest h

/-! ## Appending synthetic closing tags

`_close_open_tags` appends strings of the form `"</i>" * k ++ "</b>" * m ++
"</a>" * n`.  `CloserSuffix` characterises such strings; under a
no-dangling-tag-start hypothesis, appending them changes neither the regex
open count nor the literal close count of the original text (other than by
the closers themselves). -/

inductive CloserSuffix : List Char → Prop
  | nil : CloserSuffix []
  | cons (tg : Char) (htg : tg = 'i' ∨ tg = 'b' ∨ tg = 'a') (s : List Char)
      (h : CloserSuffix s) : CloserSuffix ('<' :: '/' :: tg :: '>' :: s)

theorem CloserSuffix.append {R1 R2 : List Char} (h1 : CloserSuffix R1)
    (h2 : CloserSuffix R2) : CloserSuffix (R1 ++ R2) := by
  induction h1 with
  | nil => simpa using h2
  | cons tg htg s hs ih => exact CloserSuffix.cons tg htg (s ++ R2) ih

theorem closerSuffix_closeTags (tg : Char) (htg : tg = 'i' ∨ tg = 'b' ∨ tg = 'a') :
    ∀ n, CloserSuffix (closeTags tg n) := by
  intro n
  induction n with
  | zero => exact CloserSuffix.nil
  | succ n ih => exact CloserSuffix.cons tg htg (closeTags tg n) ih

/-- A tracked tag character is none of the structural characters of a
closing tag. -/
theorem tag_facts {tag : Char} (htag : tag = 'i' ∨ tag = 'b' ∨ tag = 'a') :
    tag ≠ '<' ∧ tag ≠ '/' ∧ tag ≠ '>' := by
  rcases htag with rfl | rfl | rfl <;> exact ⟨by decide, by decide, by decide⟩

theorem countOpen_closerSuffix {tag : Char}
    (htag : tag = 'i' ∨ tag = 'b' ∨ tag = 'a') {R : List Char}
    (hR : CloserSuffix R) : countOpen tag R = 0 := by
  obtain ⟨hlt, hsl, _⟩ := tag_facts htag
  induction hR with
  | nil => exact countOpen_nil tag
  | cons tg htg s hs ih =>
    obtain ⟨htg1, _, _⟩ := tag_facts htg
    rw [countOpen_not_tag tag '/' (tg :: '>' :: s) (fun h => hsl h.symm),
        countOpen_other tag '/' _ (by decide),
        countOpen_other tag tg _ htg1,
        countOpen_other tag '>' _ (by decide)]
    exact ih

theorem openDangling_closerSuffix {tag : Char}
    (htag : tag = 'i' ∨ tag = 'b' ∨ tag = 'a') {R : List Char}
    (hR : CloserSuffix R) : openDangling tag R = false := by
  obtain ⟨hlt, hsl, _⟩ := tag_facts htag
  induction hR with
  | nil => exact openDangling_nil tag
  | cons tg htg s hs ih =>
    obtain ⟨htg1, _, _⟩ := tag_facts htg
    rw [openDangling_not_tag tag '/' (tg :: '>' :: s) (fun h => hsl h.symm),
        openDangling_other tag '/' _ (by decide),
        openDangling_other tag tg _ htg1,
        openDangling_other tag '>' _ (by decide)]
    exact ih

/-- Appending a closers-only string to a text whose scan for `tag` has no
dangling attributed tag start neither changes the open count for `tag` nor
introduces a dangling start. -/
theorem scan_append {tag : Char} (htag : tag = 'i' ∨ tag = 'b' ∨ tag = 'a')
    {R : List Char} (hR : CloserSuffix R) :
    ∀ (f : Nat) (s : List Char), s.length ≤ f → openDangling tag s = false →
      countOpen tag (s ++ R) = countOpen tag s ∧
        openDangling tag (s ++ R) = false := by
  obtain ⟨hlt, hsl, hgt⟩ := tag_facts htag
  intro f s
  induction f, s using countOpenTagF.induct tag with
  | case1 f =>
    intro _ _
    simpa using ⟨countOpen_closerSuffix htag hR, openDangling_closerSuffix htag hR⟩
  | case2 c rest => intro h _; simp at h
  | case3 f =>
    intro _ hdang
    cases hR with
    | nil => exact ⟨by simp, by simpa using hdang⟩
    | cons tg htg s2 hs2 =>
      constructor
      · rw [List.cons_append, List.nil_append,
            countOpen_not_tag tag '<' _ (fun h => hlt h.symm),
            countOpen_lt_nil]
        exact countOpen_closerSuffix htag (CloserSuffix.cons tg htg s2 hs2)
      · rw [List.cons_append, List.nil_append,
            openDangling_not_tag tag '<' _ (fun h => hlt h.symm)]
        exact openDangling_closerSuffix htag (CloserSuffix.cons tg htg s2 hs2)
  | case4 f ih =>
    intro _ hdang
    cases hR with
    | nil => exact ⟨by simp, by simpa using hdang⟩
    | cons tg htg s2 hs2 =>
      have hRc : CloserSuffix ('<' :: '/' :: tg :: '>' :: s2) :=
        CloserSuffix.cons tg htg s2 hs2
      constructor
      · rw [List.cons_append, List.cons_append, List.nil_append,
            countOpen_not_ws tag '<' _ (by decide) (by decide),
            countOpen_other tag tag _ hlt,
            countOpen_tag_nil, countOpen_other tag tag _ hlt, countOpen_nil]
        exact countOpen_closerSuffix htag hRc
      · rw [List.cons_append, List.cons_append, List.nil_append,
            openDangling_not_ws tag '<' _ (by decide) (by decide),
            openDangling_other tag tag _ hlt]
        exact openDangling_closerSuffix htag hRc
  | case5 f rest ih =>
    intro hf hd
    simp only [List.length_cons] at hf
    rw [openDangling_match_gt] at hd
    obtain ⟨h1, h2⟩ := ih (by omega) hd
    constructor
    · rw [List.cons_append, List.cons_append, List.cons_append,
          countOpen_match_gt, countOpen_match_gt, h1]
    · rw [List.cons_append, List.cons_append, List.cons_append,
          openDangling_match_gt]
      exact h2
  | case6 f d rest3 hd3 hws rem hfind ih =>
    intro hf hdang
    simp only [List.length_cons] at hf
    have hlen := findGt_some_length rest3 rem hfind
    rw [openDangling_ws_some tag d rest3 rem hd3 hws hfind] at hdang
    obtain ⟨h1, h2⟩ := ih (by omega) hdang
    have hfind2 := findGt_append_some R rest3 rem hfind
    constructor
    · rw [List.cons_append, List.cons_append, List.cons_append,
          countOpen_ws_some tag d (rest3 ++ R) (rem ++ R) hd3 hws hfind2,
          countOpen_ws_some tag d rest3 rem hd3 hws hfind, h1]
    · rw [List.cons_append, List.cons_append, List.cons_append,
          openDangling_ws_some tag d (rest3 ++ R) (rem ++ R) hd3 hws hfind2]
      exact h2
  | case7 f d rest3 hd3 hws hfind =>
    intro hf hdang
    rw [openDangling_ws_none tag d rest3 hd3 hws hfind] at hdang
    exact absurd hdang (by simp)
  | case8 f d rest3 hd3 hws ih =>
    intro hf hdang
    simp only [List.length_cons] at hf
    rw [openDangling_not_ws tag d rest3 hd3 hws] at hdang
    obtain ⟨h1, h2⟩ := ih (by simp; omega) hdang
    constructor
    · rw [List.cons_append, List.cons_append, List.cons_append,
          countOpen_not_ws tag d (rest3 ++ R) hd3 hws,
          countOpen_not_ws tag d rest3 hd3 hws, ← List.cons_append,
          ← List.cons_append, h1]
    · rw [List.cons_append, List.cons_append, List.cons_append,
          openDangling_not_ws tag d (rest3 ++ R) hd3 hws, ← List.cons_append,
          ← List.cons_append]
      exact h2
  | case9 f t rest2 ht ih =>
    intro hf hdang
    simp only [List.length_cons] at hf
    rw [openDangling_not_tag tag t rest2 ht] at hdang
    obtain ⟨h1, h2⟩ := ih (by simp; omega) hdang
    constructor
    · rw [List.cons_append, List.cons_append,
          countOpen_not_tag tag t (rest2 ++ R) ht,
          countOpen_not_tag tag t rest2 ht, ← List.cons_append, h1]
    · rw [List.cons_append, List.cons_append,
          openDangling_not_tag tag t (rest2 ++ R) ht, ← List.cons_append]
      exact h2
  | case10 f c rest hc ih =>
    intro hf hdang
    simp only [List.length_cons] at hf
    rw [openDangling_other tag c rest hc] at hdang
    obtain ⟨h1, h2⟩ := ih (by omega) hdang
    constructor
    · rw [List.cons_append, countOpen_other tag c (rest ++ R) hc,
          countOpen_other tag c rest hc, h1]
    · rw [List.cons_append, openDangling_other tag c (rest ++ R) hc]
      exact h2

/-- A failed prefix match of `pat` at the head of a non-empty string cannot
become a successful one after appending a string that starts with `'<'`,
provided no character of `pat` other than possibly its head is `'<'`. -/
theorem isPrefixOf_append_lt_false :
    ∀ (rest pat : List Char), '<' ∉ pat.drop 1 →
      ∀ (c : Char) (R' : List Char),
        pat.isPrefixOf (c :: rest) = false →
        pat.isPrefixOf ((c :: rest) ++ '<' :: R') = false := by
  intro rest
  induction rest with
  | nil =>
    intro pat hlt c R' h
    cases pat with
    | nil => simp [List.isPrefixOf] at h
    | cons p ps =>
      by_cases hpc : p = c
      · subst hpc
        cases ps with
        | nil => simp [List.isPrefixOf] at h
        | cons q qs =>
          have hq : q ≠ '<' := by
            intro hq
            exact hlt (by simp [hq])
          show ((p == p) && ((q == '<') && qs.isPrefixOf R')) = false
          simp [beq_eq_false_iff_ne.2 hq]
      · show ((p == c) && _) = false
        simp [beq_eq_false_iff_ne.2 hpc]
  | cons r rs ih =>
    intro pat hlt c R' h
    cases pat with
    | nil => simp [List.isPrefixOf] at h
    | cons p ps =>
      by_cases hpc : p = c
      · subst hpc
        have hps : ps.isPrefixOf (r :: rs) = false := by
          by_contra hcon
          have hb : ps.isPrefixOf (r :: rs) = true := by
            cases hb : ps.isPrefixOf (r :: rs)
            · exact absurd hb hcon
            · rfl
          have hful : (p :: ps).isPrefixOf (p :: r :: rs) = true := by
            show ((p == p) && ps.isPrefixOf (r :: rs)) = true
            simp [hb]
          rw [hful] at h
          cases h
        have hq : '<' ∉ ps.drop 1 := by
          intro hmem
          apply hlt
          have h1 : '<' ∈ ps := List.mem_of_mem_drop hmem
          simpa using h1
        have hres := ih ps hq r R' hps
        show ((p == p) && ps.isPrefixOf ((r :: rs) ++ '<' :: R')) = false
        simp only [List.cons_append] at hres
        simp [hres]
      · show ((p == c) && _) = false
        simp [beq_eq_false_iff_ne.2 hpc]

/-- Appending a string that is empty or starts with `'<'` adds the two
counts, for a pattern whose non-head characters exclude `'<'` (no occurrence
can straddle the append boundary, and the non-overlapping scans align). -/
theorem countSub_append (pat : List Char) (hpat : pat ≠ [])
    (hlt : '<' ∉ pat.drop 1) (R : List Char)
    (hR : R = [] ∨ ∃ R', R = '<' :: R') :
    ∀ (f : Nat) (s : List Char), s.length ≤ f →
      countSub pat (s ++ R) = countSub pat s + countSub pat R := by
  intro f s
  induction f, s using countSubF.induct pat with
  | case1 f => intro _; simp [countSub_nil]
  | case2 c rest => intro h; simp at h
  | case3 f c rest h ih =>
    intro hf
    simp only [List.length_cons] at hf
    have hpre : pat.isPrefixOf ((c :: rest) ++ R) = true := by
      rw [List.isPrefixOf_iff_prefix] at h ⊢
      exact h.trans (List.prefix_append _ R)
    have hle : pat.length ≤ (c :: rest).length :=
      (List.isPrefixOf_iff_prefix.1 h).length_le
    have hdrop : ((c :: rest) ++ R).drop pat.length =
        ((c :: rest).drop pat.length) ++ R := List.drop_append_of_le_length hle
    have hlen : ((c :: rest).drop pat.length).length ≤ rest.length := by
      simp only [List.length_drop, List.length_cons]
      have : 1 ≤ pat.length := List.length_pos.2 hpat
      omega
    rw [List.cons_append, countSub_pos pat hpat c (rest ++ R)
        (by simpa [List.cons_append] using hpre)]
    rw [countSub_pos pat hpat c rest h]
    have hstep : ((c :: rest) ++ R).drop pat.length =
        ((c :: (rest ++ R))).drop pat.length := by simp
    rw [← List.cons_append, hdrop, ih (by omega)]
    omega
  | case4 f c rest h ih =>
    intro hf
    simp only [List.length_cons] at hf
    rcases hR with rfl | ⟨R', rfl⟩
    · simp [countSub_nil]
    · have hfalse : pat.isPrefixOf (c :: rest) = false :=
        Bool.eq_false_iff.2 h
      have hfail : pat.isPrefixOf ((c :: rest) ++ '<' :: R') = false :=
        isPrefixOf_append_lt_false rest pat hlt c R' hfalse
      have hfail2 : ¬pat.isPrefixOf (c :: (rest ++ '<' :: R')) = true := by
        simp only [List.cons_append] at hfail
        simp [hfail]
      rw [List.cons_append, countSub_neg pat c (rest ++ '<' :: R') hfail2]
      rw [countSub_neg pat c rest h, ih (by omega)]

theorem closeTag_ne_nil (tag : Char) : closeTag tag ≠ [] := by
  simp [closeTag]

theorem closeTag_no_lt_tail (tag : Char) (htag : tag ≠ '<') :
    '<' ∉ (closeTag tag).drop 1 := by
  simp [closeTag]
  exact fun h => htag h.symm

/-- `s.count(f"</{u}>")` on a single closing tag `</t>`. -/
theorem countSub_closeTag_closeTag (u t : Char) (ht : t ≠ '<') :
    countSub (closeTag u) (closeTag t) = if u = t then 1 else 0 := by
  by_cases hut : u = t
  · subst hut
    rw [if_pos rfl]
    have hstep : countSub (closeTag u) ('<' :: '/' :: u :: '>' :: []) =
        1 + countSub (closeTag u) (('<' :: '/' :: u :: '>' :: []).drop 4) := by
      exact countSub_pos (closeTag u) (closeTag_ne_nil u) '<' ('/' :: u :: '>' :: [])
        (by simp [closeTag])
    simpa [closeTag, countSub_nil] using hstep
  · rw [if_neg hut]
    have h1 : (closeTag u).isPrefixOf ('<' :: '/' :: t :: '>' :: []) = false := by
      show (('<' == '<') && (('/' == '/') && ((u == t) && _))) = false
      simp [beq_eq_false_iff_ne.2 hut]
    have h2 : (closeTag u).isPrefixOf ('/' :: t :: '>' :: []) = false := by
      show (('<' == '/') && _) = false
      simp
    have h3 : (closeTag u).isPrefixOf (t :: '>' :: []) = false := by
      show (('<' == t) && _) = false
      simp [beq_eq_false_iff_ne.2 (fun h => ht h.symm)]
    have h4 : (closeTag u).isPrefixOf ('>' :: []) = false := by
      show (('<' == '>') && _) = false
      simp
    show countSub (closeTag u) ('<' :: '/' :: t :: '>' :: []) = 0
    rw [countSub_neg _ _ _ (by simp [h1]), countSub_neg _ _ _ (by simp [h2]),
        countSub_neg _ _ _ (by simp [h3]), countSub_neg _ _ _ (by simp [h4]),
        countSub_nil]

theorem closeTags_shape (t : Char) (n : Nat) :
    closeTags t n = [] ∨ ∃ R', closeTags t n = '<' :: R' := by
  cases n with
  | zero => exact Or.inl rfl
  | succ n => exact Or.inr ⟨'/' :: t :: '>' :: closeTags t n, rfl⟩

/-- `s.count(f"</{u}>")` on the appended block `f"</{t}>" * n`. -/
theorem countSub_closeTag_closeTags (u t : Char) (hu : u ≠ '<') (ht : t ≠ '<') :
    ∀ n, countSub (closeTag u) (closeTags t n) = if u = t then n else 0 := by
  intro n
  induction n with
  | zero => by_cases h : u = t <;> simp [closeTags, countSub_nil, h]
  | succ n ih =>
    have : closeTags t (n + 1) = closeTag t ++ closeTags t n := rfl
    rw [this, countSub_append (closeTag u) (closeTag_ne_nil u)
        (closeTag_no_lt_tail u hu) (closeTags t n) (closeTags_shape t n)
        (closeTag t).length (closeTag t) le_rfl,
        countSub_closeTag_closeTag u t ht, ih]
    by_cases h : u = t
    · simp [h, Nat.add_comm]
    · simp [h]

theorem closeOneTag_eq (tag : Char) (s : List Char) :
    closeOneTag tag s =
      s ++ closeTags tag (countOpen tag s - countSub (closeTag tag) s) := by
  unfold closeOneTag
  by_cases h : countSub (closeTag tag) s < countOpen tag s
  · rw [if_pos h]
  · rw [if_neg h]
    have : countOpen tag s - countSub (closeTag tag) s = 0 := by omega
    rw [this]
    simp [closeTags]

theorem closeOpenTags_eq (s : List Char) :
    closeOpenTags s = closeOneTag 'a' (closeOneTag 'b' (closeOneTag 'i' s)) := rfl

theorem CloserSuffix.shape {R : List Char} (h : CloserSuffix R) :
    R = [] ∨ ∃ R', R = '<' :: R' := by
  cases h with
  | nil => exact Or.inl rfl
  | cons tg htg s hs => exact Or.inr ⟨'/' :: tg :: '>' :: s, rfl⟩

/-- The repaired text is the original text followed by the three synthetic
closer blocks, whose multiplicities are the open/close deficits measured on
the original text — provided the original text has no dangling attributed
tag start for any tracked tag. -/
theorem closeOpenTags_decomposition (s : List Char)
    (hb : openDangling 'b' s = false)
    (ha : openDangling 'a' s = false) :
    closeOpenTags s =
      s ++ closeTags 'i' (countOpen 'i' s - countSub (closeTag 'i') s)
        ++ closeTags 'b' (countOpen 'b' s - countSub (closeTag 'b') s)
        ++ closeTags 'a' (countOpen 'a' s - countSub (closeTag 'a') s) := by
  have hti : ('i' : Char) = 'i' ∨ ('i' : Char) = 'b' ∨ ('i' : Char) = 'a' := Or.inl rfl
  have htb : ('b' : Char) = 'i' ∨ ('b' : Char) = 'b' ∨ ('b' : Char) = 'a' :=
    Or.inr (Or.inl rfl)
  have hta : ('a' : Char) = 'i' ∨ ('a' : Char) = 'b' ∨ ('a' : Char) = 'a' :=
    Or.inr (Or.inr rfl)
  set ki := countOpen 'i' s - countSub (closeTag 'i') s with hki
  set Ri := closeTags 'i' ki with hRidef
  have hRi : CloserSuffix Ri := closerSuffix_closeTags 'i' hti ki
  have e1 : closeOneTag 'i' s = s ++ Ri := closeOneTag_eq 'i' s
  -- stage b: counts on `s ++ Ri` agree with counts on `s`
  have hob : countOpen 'b' (s ++ Ri) = countOpen 'b' s :=
    (scan_append htb hRi s.length s le_rfl hb).1
  have hcb : countSub (closeTag 'b') (s ++ Ri) = countSub (closeTag 'b') s := by
    rw [countSub_append (closeTag 'b') (closeTag_ne_nil 'b')
        (closeTag_no_lt_tail 'b' (by decide)) Ri hRi.shape s.length s le_rfl]
    rw [hRidef, countSub_closeTag_closeTags 'b' 'i' (by decide) (by decide)]
    simp
  set kb := countOpen 'b' s - countSub (closeTag 'b') s with hkb
  set Rb := closeTags 'b' kb with hRbdef
  have hRb : CloserSuffix Rb := closerSuffix_closeTags 'b' htb kb
  have e2 : closeOneTag 'b' (s ++ Ri) = s ++ Ri ++ Rb := by
    rw [closeOneTag_eq 'b' (s ++ Ri), hob, hcb]
  -- stage a: counts on `s ++ Ri ++ Rb` agree with counts on `s`
  have hRiRb : CloserSuffix (Ri ++ Rb) := hRi.append hRb
  have hoa : countOpen 'a' (s ++ Ri ++ Rb) = countOpen 'a' s := by
    rw [List.append_assoc]
    exact (scan_append hta hRiRb s.length s le_rfl ha).1
  have hca : countSub (closeTag 'a') (s ++ Ri ++ Rb) = countSub (closeTag 'a') s := by
    rw [countSub_append (closeTag 'a') (closeTag_ne_nil 'a')
        (closeTag_no_lt_tail 'a' (by decide)) Rb hRb.shape (s ++ Ri).length (s ++ Ri)
        le_rfl]
    rw [countSub_append (closeTag 'a') (closeTag_ne_nil 'a')
        (closeTag_no_lt_tail 'a' (by decide)) Ri hRi.shape s.length s le_rfl]
    rw [hRidef, hRbdef, countSub_closeTag_closeTags 'a' 'i' (by decide) (by decide),
        countSub_closeTag_closeTags 'a' 'b' (by decide) (by decide)]
    simp
  have e3 : closeOneTag 'a' (s ++ Ri ++ Rb) =
      s ++ Ri ++ Rb ++ closeTags 'a' (countOpen 'a' s - countSub (closeTag 'a') s) := by
    rw [closeOneTag_eq 'a' (s ++ Ri ++ Rb), hoa, hca]
  rw [closeOpenTags_eq, e1, e2, e3]

/-- Open/close counts of the repaired text, in terms of the original text
(no-dangling hypothesis). -/
theorem closeOpenTags_counts (s : List Char)
    (hi : openDangling 'i' s = false) (hb : openDangling 'b' s = false)
    (ha : openDangling 'a' s = false)
    (tag : Char) (htag : tag = 'i' ∨ tag = 'b' ∨ tag = 'a') :
    countOpen tag (closeOpenTags s) = countOpen tag s ∧
      countSub (closeTag tag) (closeOpenTags s) =
        countSub (closeTag tag) s +
          (countOpen tag s - countSub (closeTag tag) s) := by
  have hti : ('i' : Char) = 'i' ∨ ('i' : Char) = 'b' ∨ ('i' : Char) = 'a' := Or.inl rfl
  have htb : ('b' : Char) = 'i' ∨ ('b' : Char) = 'b' ∨ ('b' : Char) = 'a' :=
    Or.inr (Or.inl rfl)
  have hta : ('a' : Char) = 'i' ∨ ('a' : Char) = 'b' ∨ ('a' : Char) = 'a' :=
    Or.inr (Or.inr rfl)
  have hdang : openDangling tag s = false := by
    rcases htag with rfl | rfl | rfl
    · exact hi
    · exact hb
    · exact ha
  set ki := countOpen 'i' s - countSub (closeTag 'i') s with hki
  set kb := countOpen 'b' s - countSub (closeTag 'b') s with hkb
  set ka := countOpen 'a' s - countSub (closeTag 'a') s with hka
  have hRi : CloserSuffix (closeTags 'i' ki) := closerSuffix_closeTags 'i' hti ki
  have hRb : CloserSuffix (closeTags 'b' kb) := closerSuffix_closeTags 'b' htb kb
  have hRa : CloserSuffix (closeTags 'a' ka) := closerSuffix_closeTags 'a' hta ka
  have hdecomp := closeOpenTags_decomposition s hb ha
  rw [← hki, ← hkb, ← hka] at hdecomp
  obtain ⟨hne_lt, _, _⟩ := tag_facts htag
  constructor
  · rw [hdecomp, List.append_assoc, List.append_assoc, ← List.append_assoc
        (closeTags 'i' ki)]
    exact (scan_append htag ((hRi.append hRb).append hRa) s.length s le_rfl hdang).1
  · rw [hdecomp]
    rw [countSub_append (closeTag tag) (closeTag_ne_nil tag)
        (closeTag_no_lt_tail tag hne_lt) (closeTags 'a' ka) hRa.shape
        (s ++ closeTags 'i' ki ++ closeTags 'b' kb).length _ le_rfl]
    rw [countSub_append (closeTag tag) (closeTag_ne_nil tag)
        (closeTag_no_lt_tail tag hne_lt) (closeTags 'b' kb) hRb.shape
        (s ++ closeTags 'i' ki).length _ le_rfl]
    rw [countSub_append (closeTag tag) (closeTag_ne_nil tag)
        (closeTag_no_lt_tail tag hne_lt) (closeTags 'i' ki) hRi.shape
        s.length _ le_rfl]
    rw [countSub_closeTag_closeTags tag 'i' hne_lt (by decide),
        countSub_closeTag_closeTags tag 'b' hne_lt (by decide),
        countSub_closeTag_closeTags tag 'a' hne_lt (by decide)]
    rcases htag with rfl | rfl | rfl <;> simp

/-! ## Bracket-free text is a fixed point of the repair -/

theorem countOpen_no_lt (tag : Char) :
    ∀ s : List Char, '<' ∉ s → countOpen tag s = 0 := by
  intro s
  induction s with
  | nil => intro _; exact countOpen_nil tag
  | cons c rest ih =>
    intro h
    have hc : ¬c = '<' := fun hc => h (hc ▸ List.mem_cons_self c rest)
    rw [countOpen_other tag c rest hc]
    exact ih fun hm => h (List.mem_cons_of_mem c hm)

theorem openDangling_no_lt (tag : Char) :
    ∀ s : List Char, '<' ∉ s → openDangling tag s = false := by
  intro s
  induction s with
  | nil => intro _; exact openDangling_nil tag
  | cons c rest ih =>
    intro h
    have hc : ¬c = '<' := fun hc => h (hc ▸ List.mem_cons_self c rest)
    rw [openDangling_other tag c rest hc]
    exact ih fun hm => h (List.mem_cons_of_mem c hm)

theorem countSub_closeTag_no_lt (u : Char) :
    ∀ s : List Char, '<' ∉ s → countSub (closeTag u) s = 0 := by
  intro s
  induction s with
  | nil => intro _; exact countSub_nil _
  | cons c rest ih =>
    intro h
    have hc : ¬c = '<' := fun hc => h (hc ▸ List.mem_cons_self c rest)
    have hpre : ¬(closeTag u).isPrefixOf (c :: rest) = true := by
      show ¬(('<' == c) && _) = true
      simp [beq_eq_false_iff_ne.2 (fun h2 => hc h2.symm)]
    rw [countSub_neg _ _ _ hpre]
    exact ih fun hm => h (List.mem_cons_of_mem c hm)

theorem closeOneTag_no_lt (tag : Char) (s : List Char) (h : '<' ∉ s) :
    closeOneTag tag s = s := by
  rw [closeOneTag_eq, countOpen_no_lt tag s h, countSub_closeTag_no_lt tag s h]
  simp [closeTags]

theorem closeOpenTags_no_lt (s : List Char) (h : '<' ∉ s) :
    closeOpenTags s = s := by
  rw [closeOpenTags_eq, closeOneTag_no_lt 'i' s h, closeOneTag_no_lt 'b' s h,
      closeOneTag_no_lt 'a' s h]

theorem joinNN_all_nil (l : List (List Char)) (h : ∀ x ∈ l, x = []) :
    ∀ c ∈ joinNN l, c = '\n' := by
  induction l with
  | nil => intro c hc; simp [joinNN] at hc
  | cons x rest ih =>
    intro c hc
    cases rest with
    | nil =>
      rw [h x (by simp)] at hc
      simp [joinNN] at hc
    | cons y rs =>
      rw [joinNN_cons x (y :: rs) (by simp)] at hc
      rcases List.mem_append.1 hc with hc | hc
      · rcases List.mem_append.1 hc with hc | hc
        · rw [h x (by simp)] at hc
          simp at hc
        · simpa [nn] using hc
      · exact ih (fun z hz => h z (List.mem_cons_of_mem x hz)) c hc

/-- `_split_message` returns exactly the pre-repair segments with
`_close_open_tags` applied to each. -/
theorem splitMessage_eq_map (text : List Char) (maxLen : Nat) :
    splitMessage text maxLen = (splitRaw text maxLen).map closeOpenTags := by
  have hmap : splitGo closeOpenTags maxLen (pySplit text) [] [] =
      (splitGo id maxLen (pySplit text) [] []).map closeOpenTags := by
    have := splitGo_map closeOpenTags maxLen (pySplit text) [] []
    simpa using this
  unfold splitMessage splitRaw
  by_cases hP : splitGo id maxLen (pySplit text) [] [] = []
  · rw [hP] at hmap
    have hchunks := (splitGo_id_eq_nil maxLen (pySplit text) [] hP).2
    have hnl : '<' ∉ text.take maxLen := by
      intro hmem
      have hm1 : maxLen ≠ 0 := by
        intro h0
        rw [h0] at hmem
        simp at hmem
      have hintext : '<' ∈ text := List.take_subset maxLen text hmem
      have hallnil : ∀ c ∈ pySplit text, c = [] := by
        intro c hc
        have := hchunks c hc
        rcases List.take_eq_nil_iff.1 this with h | h
        · exact absurd h hm1
        · exact h
      have htext : ∀ c ∈ joinNN (pySplit text), c = '\n' :=
        joinNN_all_nil (pySplit text) hallnil
      rw [joinNN_pySplit text] at htext
      have := htext '<' hintext
      simp at this
    simp [hP, hmap, closeOpenTags_no_lt (text.take maxLen) hnl]
  · rw [if_neg hP, hmap, if_neg (by simp [hP])]

/-! ## Reconstruction of the document from the raw segments -/

theorem joinNN_merge (a b : List Char) (rest : List (List Char)) :
    joinNN ((a ++ nn ++ b) :: rest) = joinNN (a :: b :: rest) := by
  cases rest with
  | nil => simp [joinNN]
  | cons r rs =>
    rw [joinNN_cons (a ++ nn ++ b) (r :: rs) (by simp),
        joinNN_cons a (b :: r :: rs) (by simp),
        joinNN_cons b (r :: rs) (by simp)]
    simp

theorem splitGo_reconstruct (maxLen : Nat) :
    ∀ (chunks : List (List Char)) (current : List Char)
      (parts : List (List Char)),
      current ≠ [] →
      (∀ c ∈ chunks, c ≠ [] ∧ c.length ≤ maxLen) →
      ∃ segs, splitGo id maxLen chunks current parts = parts ++ segs ∧
        segs ≠ [] ∧ joinNN segs = joinNN (current :: chunks) := by
  intro chunks
  induction chunks with
  | nil =>
    intro current parts hcur _
    refine ⟨[current], ?_, by simp, by simp [joinNN]⟩
    rw [splitGo_nil, if_neg hcur]
    rfl
  | cons chunk rest ih =>
    intro current parts hcur hchunks
    obtain ⟨hcne, hcle⟩ := hchunks chunk (by simp)
    have hrest : ∀ c ∈ rest, c ≠ [] ∧ c.length ≤ maxLen :=
      fun c hc => hchunks c (List.mem_cons_of_mem chunk hc)
    rw [splitGo_cons, if_neg hcur]
    by_cases hl : (current ++ nn ++ chunk).length ≤ maxLen
    · rw [if_pos hl]
      obtain ⟨segs, heq, hne, hjoin⟩ := ih (current ++ nn ++ chunk) parts
        (by simp [hcur]) hrest
      exact ⟨segs, heq, hne, by rw [hjoin, joinNN_merge]⟩
    · rw [if_neg hl, if_neg hcur]
      have htake : chunk.take maxLen = chunk := List.take_of_length_le hcle
      rw [htake]
      obtain ⟨segs', heq, hne, hjoin⟩ := ih chunk (parts ++ [id current]) hcne hrest
      refine ⟨current :: segs', ?_, by simp, ?_⟩
      · rw [heq, List.append_assoc]
        rfl
      · rw [joinNN_cons current segs' hne, hjoin,
            joinNN_cons current (chunk :: rest) (by simp)]

/-! ## Claim C1 -/

/-- C1, counterexample.  The claim says every segment returned by
`_split_message(text, maxLen)` — including the tag-repaired segments — has
length ≤ maxLen.  It is false: on `"<i>aaaaaaa\n\nbb"` with `maxLen = 10`
the first flushed segment is exactly 10 characters long and markup repair
appends `"</i>"`, producing a 14-character segment. -/
theorem C1_counterexample :
    splitMessage (str "<i>aaaaaaa\n\nbb") 10 =
        [str "<i>aaaaaaa</i>", str "bb"] ∧
      ¬(str "<i>aaaaaaa</i>").length ≤ 10 := by
  constructor
  · decide
  · decide

/-- C1, amended.  Every segment produced by the splitting loop *before*
markup repair has length ≤ maxLen, and `_split_message` returns exactly
those segments with `_close_open_tags` applied to each (so any excess over
maxLen comes only from the appended synthetic closing tags). -/
theorem C1_amended (text : List Char) (maxLen : Nat) :
    splitMessage text maxLen = (splitRaw text maxLen).map closeOpenTags ∧
      ∀ r ∈ splitRaw text maxLen, r.length ≤ maxLen := by
  refine ⟨splitMessage_eq_map text maxLen, ?_⟩
  intro r hr
  unfold splitRaw at hr
  by_cases hP : splitGo id maxLen (pySplit text) [] [] = []
  · rw [if_pos hP] at hr
    simp at hr
    subst hr
    simp [List.length_take]
  · rw [if_neg hP] at hr
    exact splitGo_id_length_le maxLen (pySplit text) [] [] (by simp)
      (by intro p hp; simp at hp) r hr

/-- C1, witness for the amended theorem at a concrete input. -/
theorem C1_witness :
    (str "ab" ∈ splitRaw (str "ab\n\ncd") 2) ∧ (str "ab").length ≤ 2 :=
  ⟨by decide, (C1_amended (str "ab\n\ncd") 2).2 (str "ab") (by decide)⟩

/-! ## Claim C2 -/

/-- C2, counterexample.  The claim says every segment returned by
`_split_message` has, for each tracked tag, equal open- and close-tag
counts after repair.  It is false: `_close_open_tags` only appends closers
for an excess of opens and never removes an excess of closers, so the
segment `"y</i>"` (produced from `"<i>x\n\ny</i>"` with `maxLen = 6`) has
0 opens and 1 close for tag `i`. -/
theorem C2_counterexample :
    (str "y</i>") ∈ splitMessage (str "<i>x\n\ny</i>") 6 ∧
      ¬countOpen 'i' (str "y</i>") = countSub (closeTag 'i') (str "y</i>") := by
  constructor
  · decide
  · decide

/-- C2, amended.  For every pre-repair segment `r` of `_split_message` whose
scan has no dangling whitespace-extended tag start (for any tracked tag),
the repaired segment `_close_open_tags(r)` — which is what `_split_message`
returns — has, for each tracked tag, open count ≤ close count; the counts
are equal whenever `r` did not already contain an excess of closing tags
for that tag. -/
theorem C2_amended (text : List Char) (maxLen : Nat) (r : List Char)
    (hr : r ∈ splitRaw text maxLen)
    (hi : openDangling 'i' r = false) (hb : openDangling 'b' r = false)
    (ha : openDangling 'a' r = false) :
    closeOpenTags r ∈ splitMessage text maxLen ∧
      ∀ tag, (tag = 'i' ∨ tag = 'b' ∨ tag = 'a') →
        countOpen tag (closeOpenTags r) ≤
            countSub (closeTag tag) (closeOpenTags r) ∧
          (countSub (closeTag tag) r ≤ countOpen tag r →
            countOpen tag (closeOpenTags r) =
              countSub (closeTag tag) (closeOpenTags r)) := by
  constructor
  · rw [splitMessage_eq_map]
    exact List.mem_map_of_mem closeOpenTags hr
  · intro tag htag
    obtain ⟨ho, hc⟩ := closeOpenTags_counts r hi hb ha tag htag
    constructor
    · rw [ho, hc]
      omega
    · intro hle
      rw [ho, hc]
      omega

/-- C2, witness for the amended theorem at a concrete input. -/
theorem C2_witness :
    ((str "<i>x" ∈ splitRaw (str "<i>x\n\ny</i>") 6) ∧
        openDangling 'i' (str "<i>x") = false ∧
        openDangling 'b' (str "<i>x") = false ∧
        openDangling 'a' (str "<i>x") = false ∧
        countSub (closeTag 'i') (str "<i>x") ≤ countOpen 'i' (str "<i>x")) ∧
      countOpen 'i' (closeOpenTags (str "<i>x")) =
        countSub (closeTag 'i') (closeOpenTags (str "<i>x")) :=
  ⟨⟨by decide, by decide, by decide, by decide, by decide⟩,
    ((C2_amended (str "<i>x\n\ny</i>") 6 (str "<i>x") (by decide) (by decide)
      (by decide) (by decide)).2 'i' (Or.inl rfl)).2 (by decide)⟩

/-! ## Claim C3 -/

/-- C3, counterexample.  The claim says concatenating the returned segments
in order (after stripping only the synthetic closing tags) reproduces the
original document.  It is false: the `"\n\n"` separators at the cut points
are not part of any segment, so they are lost.  On `"aa\n\nbb"` with
`maxLen = 3` the segments are `"aa"` and `"bb"` (no synthetic tag was
appended) and their concatenation is `"aabb"`. -/
theorem C3_counterexample :
    splitMessage (str "aa\n\nbb") 3 = [str "aa", str "bb"] ∧
      ¬str "aa" ++ str "bb" = str "aa\n\nbb" := by
  constructor
  · decide
  · decide

/-- C3, amended.  When every blank-line-delimited block is non-empty and
fits within maxLen (so no block is hard-truncated), joining the pre-repair
segments with the `"\n\n"` separator re-inserted reproduces the original
document exactly; the returned segments are those pre-repair segments with
the synthetic closing tags appended. -/
theorem C3_amended (text : List Char) (maxLen : Nat)
    (hchunks : ∀ c ∈ pySplit text, c ≠ [] ∧ c.length ≤ maxLen) :
    joinNN (splitRaw text maxLen) = text ∧
      splitMessage text maxLen = (splitRaw text maxLen).map closeOpenTags := by
  refine ⟨?_, splitMessage_eq_map text maxLen⟩
  rcases hps : pySplit text with _ | ⟨c0, rest⟩
  · exact absurd hps (pySplitAux_ne_nil [] text)
  · obtain ⟨hc0ne, hc0le⟩ := hchunks c0 (by rw [hps]; simp)
    have hrest : ∀ c ∈ rest, c ≠ [] ∧ c.length ≤ maxLen := by
      intro c hc
      exact hchunks c (by rw [hps]; exact List.mem_cons_of_mem c0 hc)
    obtain ⟨segs, heq, hne, hjoin⟩ :=
      splitGo_reconstruct maxLen rest c0 [] hc0ne hrest
    have hsplit : splitGo id maxLen (pySplit text) [] [] = segs := by
      rw [hps, splitGo_cons, if_pos rfl, if_pos (by simpa using hc0le), heq]
      simp
    unfold splitRaw
    rw [hsplit, if_neg hne, hjoin, ← hps]
    exact joinNN_pySplit text

/-- C3, witness for the amended theorem at a concrete input. -/
theorem C3_witness :
    (∀ c ∈ pySplit (str "ab\n\ncd"), c ≠ [] ∧ c.length ≤ 4) ∧
      joinNN (splitRaw (str "ab\n\ncd") 4) = str "ab\n\ncd" :=
  ⟨by decide, (C3_amended (str "ab\n\ncd") 4 (by decide)).1⟩

/-! ## `_normalize` (src/news_fetcher.py, lines 143–148)

```python
def _normalize(text: str) -> str:
    text = text.lower()
    text = re.sub(r"[^\w\s]", "", text)          # remove punctuation
    words = [w for w in text.split() if w not in _STOPWORDS]
    return " ".join(words)
```
`\w` and `\s` are modelled for ASCII input (letters, digits, underscore;
the six ASCII whitespace characters). -/

def stopwords : List (List Char) :=
  (["a", "an", "the", "in", "on", "at", "to", "for", "of", "and", "or",
    "but", "is", "are", "was", "were", "be", "been", "by", "from", "with",
    "that", "this", "it", "its", "as", "has", "have", "had", "will", "can",
    "may"]).map String.data

def pyWordChar (c : Char) : Bool := c.isAlpha ∨ c.isDigit ∨ c = '_'

def pyLower (s : List Char) : List Char := s.map Char.toLower

def stripPunct (s : List Char) : List Char :=
  s.filter fun c => pyWordChar c ∨ pyWs c

/-- Python's `str.split()` with no argument: split on whitespace runs,
discarding empty fields. -/
def splitWsAux (acc : List Char) : List Char → List (List Char)
  | [] => if acc = [] then [] else [acc.reverse]
  | c :: rest =>
    if pyWs c then
      if acc = [] then splitWsAux [] rest else acc.reverse :: splitWsAux [] rest
    else splitWsAux (c :: acc) rest

def pySplitWs (s : List Char) : List (List Char) := splitWsAux [] s

def joinSpace : List (List Char) → List Char
  | [] => []
  | [x] => x
  | x :: y :: rest => x ++ ' ' :: joinSpace (y :: rest)

/-- `_normalize` from src/news_fetcher.py. -/
def normalizeTitle (text : List Char) : List Char :=
  joinSpace ((pySplitWs (stripPunct (pyLower text))).filter
    fun w => !stopwords.contains w)

/-! ## `difflib.SequenceMatcher` (no junk: `SequenceMatcher(None, a, b)` on
sequences shorter than 200 characters, so `autojunk` never fires)

`find_longest_match` returns, among all maximal matching blocks, the one
starting earliest in `a`, and among those the one starting earliest in `b`;
`get_matching_blocks` recursively decomposes around that block, and
`ratio()` is `2*M/T` where `M` is the total matched size and `T` the
combined length (with `ratio() = 1.0` when both sequences are empty). -/

def commonPrefixLen : List Char → List Char → Nat
  | x :: xs, y :: ys => if x = y then commonPrefixLen xs ys + 1 else 0
  | _, _ => 0

/-- `find_longest_match` over the whole ranges: scan all start pairs in
lexicographic order, keeping the first strictly longest match. -/
def bestMatch (a b : List Char) : Nat × Nat × Nat :=
  (List.range a.length).foldl
    (fun best i =>
      (List.range b.length).foldl
        (fun best j =>
          if best.2.2 < commonPrefixLen (a.drop i) (b.drop j) then
            (i, j, commonPrefixLen (a.drop i) (b.drop j))
          else best)
        best)
    (0, 0, 0)

/-- Total matched size of `get_matching_blocks`: recursively decompose
around the longest matching block.  The fuel (total length, which strictly
decreases) makes the definition kernel-reducible. -/
def matchedTotalF : Nat → List Char → List Char → Nat
  | 0, _, _ => 0
  | fuel + 1, a, b =>
    if (bestMatch a b).2.2 = 0 then 0
    else
      matchedTotalF fuel (a.take (bestMatch a b).1) (b.take (bestMatch a b).2.1) +
        (bestMatch a b).2.2 +
        matchedTotalF fuel (a.drop ((bestMatch a b).1 + (bestMatch a b).2.2))
          (b.drop ((bestMatch a b).2.1 + (bestMatch a b).2.2))

def matchedTotal (a b : List Char) : Nat :=
  matchedTotalF (a.length + b.length) a b

/-- `SequenceMatcher(None, a, b).ratio()`, with Python's float arithmetic
modelled exactly in `ℚ` (`difflib._calculate_ratio`; empty-vs-empty gives
`1.0`). -/
def ratio (a b : List Char) : ℚ :=
  if a.length + b.length = 0 then 1
  else 2 * (matchedTotal a b : ℚ) / ((a.length + b.length : Nat) : ℚ)

/-! ## `_deduplicate` (src/news_fetcher.py, lines 151–177)

```python
def _deduplicate(articles: list[dict], threshold: float = 0.65) -> list[dict]:
    kept: list[dict] = []
    kept_normalized: list[str] = []
    for article in articles:
        norm = _normalize(article["title"])
        is_dup = False
        for seen in kept_normalized:
            if SequenceMatcher(None, norm, seen).ratio() >= threshold:
                is_dup = True
                break
        if not is_dup:
            kept.append(article)
            kept_normalized.append(norm)
    return kept
```
-/

/-- The article record produced by `fetch_ethiopia_news`
(src/news_fetcher.py, lines 65–71). -/
structure Article where
  title : List Char
  description : List Char
  url : List Char
  source : List Char
  published_at : List Char
deriving DecidableEq

/-- The inner `for seen in kept_normalized` loop: is any previously kept
normalized key at least `threshold`-similar to `norm`? -/
def isDup (threshold : ℚ) (norm : List Char) (keptNorm : List (List Char)) : Bool :=
  keptNorm.any fun seen => decide (threshold ≤ ratio norm seen)

def dedupGo (threshold : ℚ) :
    List Article → List Article → List (List Char) → List Article
  | [], kept, _ => kept
  | article :: rest, kept, keptNorm =>
    if isDup threshold (normalizeTitle article.title) keptNorm then
      dedupGo threshold rest kept keptNorm
    else
      dedupGo threshold rest (kept ++ [article])
        (keptNorm ++ [normalizeTitle article.title])

/-- `_deduplicate` from src/news_fetcher.py (threshold defaults to `0.65`
in the source; it is kept explicit here). -/
def deduplicate (articles : List Article) (threshold : ℚ) : List Article :=
  dedupGo threshold articles [] []

/-- The spec's normalizer test case. -/
theorem normalizeTitle_sample :
    normalizeTitle (str "The Quick, Fox!") = str "quick fox" := by decide

/-- Concrete matcher values (each checked against CPython's difflib). -/
theorem matchedTotal_sample1 :
    matchedTotal (str "xxxxyyyyzzzz") (str "yyyq") = 3 := by decide

theorem matchedTotal_sample2 :
    matchedTotal (str "xxpyy") (str "yyqxxryy") = 4 := by decide

theorem matchedTotal_sample3 :
    matchedTotal (str "yyqxxryy") (str "xxpyy") = 2 := by decide

/-! ## Structure of the deduplicator's output -/

theorem dedupGo_shape (t : ℚ) :
    ∀ (l kept : List Article) (keptNorm : List (List Char)),
      ∃ sub, dedupGo t l kept keptNorm = kept ++ sub ∧ sub.Sublist l := by
  intro l
  induction l with
  | nil => intro kept keptNorm; exact ⟨[], by simp [dedupGo], List.nil_sublist []⟩
  | cons a rest ih =>
    intro kept keptNorm
    by_cases hdup : isDup t (normalizeTitle a.title) keptNorm = true
    · obtain ⟨sub, heq, hsub⟩ := ih kept keptNorm
      refine ⟨sub, ?_, hsub.cons a⟩
      rw [dedupGo, if_pos hdup]
      exact heq
    · obtain ⟨sub, heq, hsub⟩ := ih (kept ++ [a])
        (keptNorm ++ [normalizeTitle a.title])
      refine ⟨a :: sub, ?_, hsub.cons₂ a⟩
      rw [dedupGo, if_neg hdup, heq, List.append_assoc]
      rfl

theorem isDup_nil (t : ℚ) (norm : List Char) : isDup t norm [] = false := rfl

theorem isDup_false_iff (t : ℚ) (norm : List Char)
    (keptNorm : List (List Char)) :
    isDup t norm keptNorm = false ↔ ∀ seen ∈ keptNorm, ratio norm seen < t := by
  simp [isDup, not_le]

theorem isDup_true_iff (t : ℚ) (norm : List Char)
    (keptNorm : List (List Char)) :
    isDup t norm keptNorm = true ↔ ∃ seen ∈ keptNorm, t ≤ ratio norm seen := by
  simp [isDup]

theorem dedupGo_dropped (t : ℚ) :
    ∀ (l kept : List Article),
      (∀ x ∈ l, x ∉ dedupGo t l kept (kept.map fun z => normalizeTitle z.title) →
        ∃ y ∈ dedupGo t l kept (kept.map fun z => normalizeTitle z.title),
          t ≤ ratio (normalizeTitle x.title) (normalizeTitle y.title)) := by
  intro l
  induction l with
  | nil => intro kept x hx; simp at hx
  | cons a rest ih =>
    intro kept x hx hnot
    by_cases hdup :
        isDup t (normalizeTitle a.title)
          (kept.map fun z => normalizeTitle z.title) = true
    · rw [dedupGo, if_pos hdup] at hnot ⊢
      rcases List.mem_cons.1 hx with rfl | hx2
      · obtain ⟨seen, hseen, hle⟩ := (isDup_true_iff t _ _).1 hdup
        obtain ⟨y, hy, hyeq⟩ := List.mem_map.1 hseen
        refine ⟨y, ?_, by rw [hyeq]; exact hle⟩
        obtain ⟨sub, heq, _⟩ := dedupGo_shape t rest kept
          (kept.map fun z => normalizeTitle z.title)
        rw [heq]
        exact List.mem_append_left sub hy
      · exact ih kept x hx2 hnot
    · rw [dedupGo, if_neg hdup] at hnot ⊢
      have hmap : (kept.map fun z => normalizeTitle z.title) ++
          [normalizeTitle a.title] =
            ((kept ++ [a]).map fun z => normalizeTitle z.title) := by simp
      rw [hmap] at hnot ⊢
      rcases List.mem_cons.1 hx with rfl | hx2
      · exfalso
        apply hnot
        obtain ⟨sub, heq, _⟩ := dedupGo_shape t rest (kept ++ [x])
          ((kept ++ [x]).map fun z => normalizeTitle z.title)
        rw [heq]
        exact List.mem_append_left sub (List.mem_append_right kept (by simp))
      · exact ih (kept ++ [a]) x hx2 hnot

/-! ## Claim C10 -/

theorem dedupGo_pairwise (t : ℚ) :
    ∀ (l kept : List Article),
      List.Pairwise
        (fun x y => ratio (normalizeTitle y.title) (normalizeTitle x.title) < t)
        kept →
      List.Pairwise
        (fun x y => ratio (normalizeTitle y.title) (normalizeTitle x.title) < t)
        (dedupGo t l kept (kept.map fun x => normalizeTitle x.title)) := by
  intro l
  induction l with
  | nil => intro kept hk; simpa [dedupGo] using hk
  | cons a rest ih =>
    intro kept hk
    by_cases hdup :
        isDup t (normalizeTitle a.title) (kept.map fun x => normalizeTitle x.title) = true
    · rw [dedupGo, if_pos hdup]
      exact ih kept hk
    · rw [dedupGo, if_neg hdup]
      have hlt := (isDup_false_iff t (normalizeTitle a.title)
        (kept.map fun x => normalizeTitle x.title)).1 (by simpa using hdup)
      have hmap : (kept.map fun x => normalizeTitle x.title) ++
          [normalizeTitle a.title] =
            (kept ++ [a]).map fun x => normalizeTitle x.title := by
        simp
      rw [hmap]
      apply ih (kept ++ [a])
      rw [List.pairwise_append]
      refine ⟨hk, by simp, ?_⟩
      intro x hx y hy
      simp at hy
      subst hy
      exact hlt (normalizeTitle x.title) (List.mem_map_of_mem _ hx)

/-- C10, confirmed.  Invariant of `_deduplicate`'s output: any later kept
article is strictly below the threshold in similarity to every earlier kept
article — `SequenceMatcher(None, later_norm, earlier_norm).ratio() <
threshold`, with the normalized titles compared exactly as in the code. -/
theorem C10_dedup_pairwise_below (articles : List Article) (t : ℚ) :
    List.Pairwise
      (fun x y => ratio (normalizeTitle y.title) (normalizeTitle x.title) < t)
      (deduplicate articles t) := by
  have := dedupGo_pairwise t articles [] List.Pairwise.nil
  simpa [deduplicate] using this

/-! ## Properties of the matcher -/

theorem foldl_inv {α β : Type} (P : β → Prop) (g : β → α → β) :
    ∀ (l : List α) (init : β), P init →
      (∀ acc x, x ∈ l → P acc → P (g acc x)) → P (l.foldl g init) := by
  intro l
  induction l with
  | nil => intro init h _; simpa using h
  | cons x xs ih =>
    intro init h hstep
    rw [List.foldl_cons]
    exact ih (g init x) (hstep init x (by simp) h)
      fun acc y hy hacc => hstep acc y (List.mem_cons_of_mem x hy) hacc

theorem commonPrefixLen_self : ∀ x : List Char, commonPrefixLen x x = x.length := by
  intro x
  induction x with
  | nil => rfl
  | cons c rest ih => simp [commonPrefixLen, ih]

theorem commonPrefixLen_le_left :
    ∀ a b : List Char, commonPrefixLen a b ≤ a.length := by
  intro a
  induction a with
  | nil => intro b; cases b <;> simp [commonPrefixLen]
  | cons x xs ih =>
    intro b
    cases b with
    | nil => simp [commonPrefixLen]
    | cons y ys =>
      by_cases h : x = y
      · simp only [commonPrefixLen, if_pos h, List.length_cons]
        exact Nat.add_le_add_right (ih ys) 1
      · simp [commonPrefixLen, if_neg h]

theorem commonPrefixLen_le_right :
    ∀ a b : List Char, commonPrefixLen a b ≤ b.length := by
  intro a
  induction a with
  | nil => intro b; cases b <;> simp [commonPrefixLen]
  | cons x xs ih =>
    intro b
    cases b with
    | nil => simp [commonPrefixLen]
    | cons y ys =>
      by_cases h : x = y
      · simp only [commonPrefixLen, if_pos h, List.length_cons]
        exact Nat.add_le_add_right (ih ys) 1
      · simp [commonPrefixLen, if_neg h]

theorem bestMatch_bounds (a b : List Char) :
    (bestMatch a b).1 + (bestMatch a b).2.2 ≤ a.length ∧
      (bestMatch a b).2.1 + (bestMatch a b).2.2 ≤ b.length := by
  unfold bestMatch
  apply foldl_inv
    (P := fun st : Nat × Nat × Nat =>
      st.1 + st.2.2 ≤ a.length ∧ st.2.1 + st.2.2 ≤ b.length)
  · exact ⟨by simp, by simp⟩
  · intro acc i hi hacc
    apply foldl_inv
      (P := fun st : Nat × Nat × Nat =>
        st.1 + st.2.2 ≤ a.length ∧ st.2.1 + st.2.2 ≤ b.length)
    · exact hacc
    · intro acc2 j hj hacc2
      by_cases hk : acc2.2.2 < commonPrefixLen (a.drop i) (b.drop j)
      · rw [if_pos hk]
        have hi' : i < a.length := List.mem_range.1 hi
        have hj' : j < b.length := List.mem_range.1 hj
        have h1 : commonPrefixLen (a.drop i) (b.drop j) ≤ a.length - i := by
          have := commonPrefixLen_le_left (a.drop i) (b.drop j)
          simpa using this
        have h2 : commonPrefixLen (a.drop i) (b.drop j) ≤ b.length - j := by
          have := commonPrefixLen_le_right (a.drop i) (b.drop j)
          simpa using this
        exact ⟨by simp; omega, by simp; omega⟩
      · rw [if_neg hk]
        exact hacc2

theorem bestMatch_nil_left (b : List Char) : bestMatch [] b = (0, 0, 0) := rfl

theorem bestMatch_nil_right (a : List Char) : bestMatch a [] = (0, 0, 0) := by
  unfold bestMatch
  apply foldl_inv (P := fun st : Nat × Nat × Nat => st = (0, 0, 0))
  · rfl
  · intro acc i _ hacc
    simp only [List.length_nil, List.range_zero, List.foldl_nil]
    exact hacc

theorem mtF_succ (fuel : Nat) (a b : List Char) :
    matchedTotalF (fuel + 1) a b =
      if (bestMatch a b).2.2 = 0 then 0
      else
        matchedTotalF fuel (a.take (bestMatch a b).1) (b.take (bestMatch a b).2.1) +
          (bestMatch a b).2.2 +
          matchedTotalF fuel (a.drop ((bestMatch a b).1 + (bestMatch a b).2.2))
            (b.drop ((bestMatch a b).2.1 + (bestMatch a b).2.2)) := rfl

theorem mtF_nil_left (f : Nat) (b : List Char) : matchedTotalF f [] b = 0 := by
  cases f with
  | zero => rfl
  | succ f => rw [mtF_succ, bestMatch_nil_left]; rfl

theorem mtF_nil_right (f : Nat) (a : List Char) : matchedTotalF f a [] = 0 := by
  cases f with
  | zero => rfl
  | succ f => rw [mtF_succ, bestMatch_nil_right]; rfl

theorem bestMatch_self (x : List Char) (hx : x ≠ []) :
    bestMatch x x = (0, 0, x.length) := by
  obtain ⟨n, hn⟩ : ∃ n, x.length = n + 1 := by
    have := List.length_pos.2 hx
    exact ⟨x.length - 1, by omega⟩
  have hpreserve :
      ∀ (l : List Nat) (i : Nat) (st : Nat × Nat × Nat), st = (0, 0, x.length) →
        l.foldl
          (fun best j =>
            if best.2.2 < commonPrefixLen (x.drop i) (x.drop j) then
              (i, j, commonPrefixLen (x.drop i) (x.drop j))
            else best)
          st = (0, 0, x.length) := by
    intro l i st hst
    apply foldl_inv (P := fun st : Nat × Nat × Nat => st = (0, 0, x.length))
    · exact hst
    · intro acc j _ hacc
      subst hacc
      have hle : commonPrefixLen (x.drop i) (x.drop j) ≤ x.length := by
        have h1 := commonPrefixLen_le_left (x.drop i) (x.drop j)
        have h2 : (x.drop i).length ≤ x.length := by simp
        omega
      rw [if_neg (by show ¬x.length < commonPrefixLen (x.drop i) (x.drop j); omega)]
  have hfirst :
      ∀ ls : List Nat,
        (0 :: ls).foldl
          (fun best j =>
            if best.2.2 < commonPrefixLen (x.drop 0) (x.drop j) then
              ((0 : Nat), j, commonPrefixLen (x.drop 0) (x.drop j))
            else best)
          (0, 0, 0) = (0, 0, x.length) := by
    intro ls
    rw [List.foldl_cons]
    have hstep :
        (if ((0 : Nat), (0 : Nat), (0 : Nat)).2.2 <
            commonPrefixLen (x.drop 0) (x.drop 0) then
          ((0 : Nat), (0 : Nat), commonPrefixLen (x.drop 0) (x.drop 0))
        else (0, 0, 0)) = ((0 : Nat), (0 : Nat), x.length) := by
      rw [List.drop_zero, commonPrefixLen_self,
          if_pos (by show (0 : Nat) < x.length; omega)]
    rw [hstep]
    exact hpreserve ls 0 (0, 0, x.length) rfl
  have hrange : List.range x.length = 0 :: (List.range n).map Nat.succ := by
    rw [hn]
    exact List.range_succ_eq_map n
  unfold bestMatch
  rw [hrange, List.foldl_cons, hfirst ((List.range n).map Nat.succ)]
  apply foldl_inv (P := fun st : Nat × Nat × Nat => st = (0, 0, x.length))
  · rfl
  · intro acc i _ hacc
    exact hpreserve (0 :: (List.range n).map Nat.succ) i acc hacc

theorem matchedTotal_self (x : List Char) (hx : x ≠ []) :
    matchedTotal x x = x.length := by
  have hpos := List.length_pos.2 hx
  obtain ⟨m, hm⟩ : ∃ m, x.length + x.length = m + 1 :=
    ⟨x.length + x.length - 1, by omega⟩
  rw [matchedTotal, hm, mtF_succ, bestMatch_self x hx]
  rw [if_neg (by show ¬x.length = 0; omega)]
  simp [mtF_nil_left, List.drop_length]

theorem mtF_le : ∀ (f : Nat) (a b : List Char),
    matchedTotalF f a b ≤ a.length ∧ matchedTotalF f a b ≤ b.length := by
  intro f
  induction f with
  | zero => intro a b; exact ⟨Nat.zero_le _, Nat.zero_le _⟩
  | succ f ih =>
    intro a b
    rw [mtF_succ]
    by_cases hk : (bestMatch a b).2.2 = 0
    · rw [if_pos hk]
      exact ⟨Nat.zero_le _, Nat.zero_le _⟩
    · rw [if_neg hk]
      obtain ⟨hba, hbb⟩ := bestMatch_bounds a b
      obtain ⟨hL1, hL2⟩ := ih (a.take (bestMatch a b).1) (b.take (bestMatch a b).2.1)
      obtain ⟨hR1, hR2⟩ := ih (a.drop ((bestMatch a b).1 + (bestMatch a b).2.2))
        (b.drop ((bestMatch a b).2.1 + (bestMatch a b).2.2))
      have l1 : (a.take (bestMatch a b).1).length ≤ (bestMatch a b).1 :=
        List.length_take_le _ _
      have l2 : (b.take (bestMatch a b).2.1).length ≤ (bestMatch a b).2.1 :=
        List.length_take_le _ _
      have l3 : (a.drop ((bestMatch a b).1 + (bestMatch a b).2.2)).length =
          a.length - ((bestMatch a b).1 + (bestMatch a b).2.2) := by simp
      have l4 : (b.drop ((bestMatch a b).2.1 + (bestMatch a b).2.2)).length =
          b.length - ((bestMatch a b).2.1 + (bestMatch a b).2.2) := by simp
      omega

theorem matchedTotal_le (a b : List Char) :
    matchedTotal a b ≤ a.length ∧ matchedTotal a b ≤ b.length :=
  mtF_le (a.length + b.length) a b

/-! ## Claim C6 -/

/-- C6, counterexample.  The claim says the similarity
(`SequenceMatcher.ratio`) is symmetric.  It is not: the longest-match
tie-break ("earliest in `a`, then earliest in `b`") is order-dependent.
For `a = "xxpyy"`, `b = "yyqxxryy"` the decomposition matches `"xx"` and
then `"yy"` (ratio `8/13`), while with the arguments swapped only the
first `"yy"` block is matched (ratio `4/13`). -/
theorem C6_counterexample :
    ¬ratio (str "xxpyy") (str "yyqxxryy") =
        ratio (str "yyqxxryy") (str "xxpyy") := by
  have hm1 : matchedTotal (str "xxpyy") (str "yyqxxryy") = 4 := by decide
  have hm2 : matchedTotal (str "yyqxxryy") (str "xxpyy") = 2 := by decide
  have hl1 : (str "xxpyy").length = 5 := by decide
  have hl2 : (str "yyqxxryy").length = 8 := by decide
  rw [ratio, ratio, hm1, hm2, hl1, hl2]
  norm_num

/-- C6, amended.  Reflexivity and range do hold: `ratio(x, x) = 1.0` for
every non-empty `x`, and `ratio` always lies in `[0, 1]`; but symmetry
fails in general (see the counterexample). -/
theorem C6_amended :
    (∀ x : List Char, x ≠ [] → ratio x x = 1) ∧
      ∀ a b : List Char, 0 ≤ ratio a b ∧ ratio a b ≤ 1 := by
  constructor
  · intro x hx
    have hpos := List.length_pos.2 hx
    rw [ratio, if_neg (by omega), matchedTotal_self x hx]
    have hne : ((x.length + x.length : Nat) : ℚ) ≠ 0 := by
      push_cast
      intro hcon
      have : (x.length : ℚ) = 0 := by linarith
      rw [show ((x.length : ℚ) = 0) ↔ x.length = 0 from by norm_cast] at this
      omega
    field_simp
    ring
  · intro a b
    by_cases hT : a.length + b.length = 0
    · rw [ratio, if_pos hT]
      norm_num
    · constructor
      · rw [ratio, if_neg hT]
        positivity
      · rw [ratio, if_neg hT]
        rw [div_le_one (by positivity)]
        obtain ⟨h1, h2⟩ := matchedTotal_le a b
        push_cast
        have ha2 : (matchedTotal a b : ℚ) ≤ a.length := by exact_mod_cast h1
        have : (matchedTotal a b : ℚ) ≤ b.length := by exact_mod_cast h2
        linarith

/-- C6, witness for the amended theorem at a concrete input. -/
theorem C6_witness :
    (['a'] : List Char) ≠ [] ∧ ratio ['a'] ['a'] = 1 :=
  ⟨by decide, C6_amended.1 ['a'] (by decide)⟩

/-! ## Claim C4 -/

theorem dedup_singleton (a : Article) (t : ℚ) : deduplicate [a] t = [a] := by
  rw [deduplicate, dedupGo, if_neg (by rw [isDup_nil]; simp)]
  rfl

theorem dedup_pair (a b : Article) (t : ℚ) :
    deduplicate [a, b] t =
      if isDup t (normalizeTitle b.title) [normalizeTitle a.title] then [a]
      else [a, b] := by
  rw [deduplicate, dedupGo, if_neg (by rw [isDup_nil]; simp)]
  by_cases h : isDup t (normalizeTitle b.title) [normalizeTitle a.title] = true
  · rw [dedupGo, if_pos (by simpa using h), if_pos h]
    rfl
  · rw [dedupGo, if_neg (by simpa using h), if_neg h]
    rfl

/-- C4, amended.  The individual duplicate test is antitone in the
threshold: for a fixed list of previously kept keys, any item marked
duplicate at `t2` is also marked duplicate at any `t1 ≤ t2`; consequently
the number of removed items is antitone in the threshold for lists of at
most two articles.  (For longer lists the claimed antitonicity is false —
see the counterexample: keeping a borderline item at a higher threshold can
knock out several later items.) -/
theorem C4_amended (t1 t2 : ℚ) (h12 : t1 ≤ t2) :
    (∀ (norm : List Char) (keptNorm : List (List Char)),
        isDup t2 norm keptNorm = true → isDup t1 norm keptNorm = true) ∧
      ∀ articles : List Article, articles.length ≤ 2 →
        articles.length - (deduplicate articles t2).length ≤
          articles.length - (deduplicate articles t1).length := by
  have hmono : ∀ (norm : List Char) (keptNorm : List (List Char)),
      isDup t2 norm keptNorm = true → isDup t1 norm keptNorm = true := by
    intro norm ks h
    simp only [isDup, List.any_eq_true, decide_eq_true_eq] at h ⊢
    obtain ⟨s, hs, hle⟩ := h
    exact ⟨s, hs, le_trans h12 hle⟩
  refine ⟨hmono, ?_⟩
  intro articles hlen
  cases articles with
  | nil => simp [deduplicate, dedupGo]
  | cons a rest =>
    cases rest with
    | nil => rw [dedup_singleton, dedup_singleton]
    | cons b rest2 =>
      cases rest2 with
      | nil =>
        rw [dedup_pair, dedup_pair]
        by_cases h2 : isDup t2 (normalizeTitle b.title) [normalizeTitle a.title] = true
        · rw [if_pos h2, if_pos (hmono _ _ h2)]
        · rw [if_neg h2]
          by_cases h1 : isDup t1 (normalizeTitle b.title) [normalizeTitle a.title] = true
          · rw [if_pos h1]
            simp
          · rw [if_neg h1]
      | cons c rest3 => simp at hlen

/-- Articles used in the C4 counterexample (titles chosen so that all
similarity ratios are exact dyadic rationals, hence bit-exact in Python's
float arithmetic as well). -/
def cexA : Article := ⟨str "yyyq", [], [], [], []⟩

def cexB : Article := ⟨str "xxxxyyyyzzzz", [], [], [], []⟩

def cexC : Article := ⟨str "xxxx", [], [], [], []⟩

def cexD : Article := ⟨str "zzzz", [], [], [], []⟩

theorem ratio_ba : ratio (str "xxxxyyyyzzzz") (str "yyyq") = 3 / 8 := by
  have hm : matchedTotal (str "xxxxyyyyzzzz") (str "yyyq") = 3 := by decide
  have h1 : (str "xxxxyyyyzzzz").length = 12 := by decide
  have h2 : (str "yyyq").length = 4 := by decide
  rw [ratio, hm, h1, h2]
  norm_num

theorem ratio_ca : ratio (str "xxxx") (str "yyyq") = 0 := by
  have hm : matchedTotal (str "xxxx") (str "yyyq") = 0 := by decide
  have h1 : (str "xxxx").length = 4 := by decide
  have h2 : (str "yyyq").length = 4 := by decide
  rw [ratio, hm, h1, h2]
  norm_num

theorem ratio_cb : ratio (str "xxxx") (str "xxxxyyyyzzzz") = 1 / 2 := by
  have hm : matchedTotal (str "xxxx") (str "xxxxyyyyzzzz") = 4 := by decide
  have h1 : (str "xxxx").length = 4 := by decide
  have h2 : (str "xxxxyyyyzzzz").length = 12 := by decide
  rw [ratio, hm, h1, h2]
  norm_num

theorem ratio_da : ratio (str "zzzz") (str "yyyq") = 0 := by
  have hm : matchedTotal (str "zzzz") (str "yyyq") = 0 := by decide
  have h1 : (str "zzzz").length = 4 := by decide
  have h2 : (str "yyyq").length = 4 := by decide
  rw [ratio, hm, h1, h2]
  norm_num

theorem ratio_db : ratio (str "zzzz") (str "xxxxyyyyzzzz") = 1 / 2 := by
  have hm : matchedTotal (str "zzzz") (str "xxxxyyyyzzzz") = 4 := by decide
  have h1 : (str "zzzz").length = 4 := by decide
  have h2 : (str "xxxxyyyyzzzz").length = 12 := by decide
  rw [ratio, hm, h1, h2]
  norm_num

theorem ratio_dc : ratio (str "zzzz") (str "xxxx") = 0 := by
  have hm : matchedTotal (str "zzzz") (str "xxxx") = 0 := by decide
  have h1 : (str "zzzz").length = 4 := by decide
  have h2 : (str "xxxx").length = 4 := by decide
  rw [ratio, hm, h1, h2]
  norm_num

theorem dedup_cex_quarter :
    deduplicate [cexA, cexB, cexC, cexD] (1 / 4) = [cexA, cexC, cexD] := by
  have nA : normalizeTitle cexA.title = str "yyyq" := by decide
  have nB : normalizeTitle cexB.title = str "xxxxyyyyzzzz" := by decide
  have nC : normalizeTitle cexC.title = str "xxxx" := by decide
  have nD : normalizeTitle cexD.title = str "zzzz" := by decide
  have iB : isDup (1 / 4) (str "xxxxyyyyzzzz") [str "yyyq"] = true := by
    simp only [isDup, List.any_cons, List.any_nil, Bool.or_false, ratio_ba,
      decide_eq_true_eq]
    norm_num
  have iC : isDup (1 / 4) (str "xxxx") [str "yyyq"] = false := by
    simp only [isDup, List.any_cons, List.any_nil, Bool.or_false, ratio_ca,
      decide_eq_false_iff_not]
    norm_num
  have iD : isDup (1 / 4) (str "zzzz") [str "yyyq", str "xxxx"] = false := by
    simp only [isDup, List.any_cons, List.any_nil, Bool.or_false, ratio_da,
      ratio_dc, Bool.or_eq_false_iff, decide_eq_false_iff_not]
    constructor <;> norm_num
  rw [deduplicate, dedupGo, if_neg (by rw [isDup_nil]; simp), List.nil_append,
      List.nil_append, nA]
  rw [dedupGo, nB, if_pos iB]
  rw [dedupGo, nC, if_neg (by intro h; rw [iC] at h; exact Bool.false_ne_true h)]
  rw [dedupGo, nD]
  simp only [List.cons_append, List.nil_append]
  rw [if_neg (by intro h; rw [iD] at h; exact Bool.false_ne_true h)]
  rfl

theorem dedup_cex_half :
    deduplicate [cexA, cexB, cexC, cexD] (1 / 2) = [cexA, cexB] := by
  have nA : normalizeTitle cexA.title = str "yyyq" := by decide
  have nB : normalizeTitle cexB.title = str "xxxxyyyyzzzz" := by decide
  have nC : normalizeTitle cexC.title = str "xxxx" := by decide
  have nD : normalizeTitle cexD.title = str "zzzz" := by decide
  have iB : isDup (1 / 2) (str "xxxxyyyyzzzz") [str "yyyq"] = false := by
    simp only [isDup, List.any_cons, List.any_nil, Bool.or_false, ratio_ba,
      decide_eq_false_iff_not]
    norm_num
  have iC : isDup (1 / 2) (str "xxxx") [str "yyyq", str "xxxxyyyyzzzz"] = true := by
    simp only [isDup, List.any_cons, List.any_nil, Bool.or_false, ratio_ca,
      ratio_cb, Bool.or_eq_true, decide_eq_true_eq]
    norm_num
  have iD : isDup (1 / 2) (str "zzzz") [str "yyyq", str "xxxxyyyyzzzz"] = true := by
    simp only [isDup, List.any_cons, List.any_nil, Bool.or_false, ratio_da,
      ratio_db, Bool.or_eq_true, decide_eq_true_eq]
    norm_num
  rw [deduplicate, dedupGo, if_neg (by rw [isDup_nil]; simp), List.nil_append,
      List.nil_append, nA]
  rw [dedupGo, nB, if_neg (by intro h; rw [iB] at h; exact Bool.false_ne_true h)]
  simp only [List.cons_append, List.nil_append]
  rw [dedupGo, nC, if_pos iC]
  rw [dedupGo, nD, if_pos iD]
  rfl

/-- C4, counterexample.  The claim says raising the threshold never
increases the number of removed items.  It is false on this four-article
list: at threshold `1/4` only the second article is removed (1 removal),
while at the larger threshold `1/2` it is kept and in turn knocks out the
third and fourth articles (2 removals).  All ratios involved (`3/8`,
`1/2`, `0`) are exact in both `ℚ` and IEEE floats. -/
theorem C4_counterexample :
    (1 / 4 : ℚ) ≤ 1 / 2 ∧
      deduplicate [cexA, cexB, cexC, cexD] (1 / 4) = [cexA, cexC, cexD] ∧
      deduplicate [cexA, cexB, cexC, cexD] (1 / 2) = [cexA, cexB] ∧
      ¬([cexA, cexB, cexC, cexD].length -
            (deduplicate [cexA, cexB, cexC, cexD] (1 / 2)).length ≤
          [cexA, cexB, cexC, cexD].length -
            (deduplicate [cexA, cexB, cexC, cexD] (1 / 4)).length) := by
  refine ⟨by norm_num, dedup_cex_quarter, dedup_cex_half, ?_⟩
  rw [dedup_cex_quarter, dedup_cex_half]
  simp

/-- C4, witness for the amended theorem at a concrete input. -/
theorem C4_witness :
    ((0 : ℚ) ≤ 1 ∧ ([] : List Article).length ≤ 2) ∧
      ([] : List Article).length - (deduplicate ([] : List Article) 1).length ≤
        ([] : List Article).length - (deduplicate ([] : List Article) 0).length :=
  ⟨⟨zero_le_one, by decide⟩, (C4_amended 0 1 zero_le_one).2 [] (by decide)⟩

/-! ## Claim C7 -/

/-- C7, confirmed.  `_deduplicate` returns an order-preserving subsequence
of its input (a `List.Sublist`); the first item of the input is always the
first item kept; and first-seen wins: an input article is discarded only in
favour of a kept article at least `threshold`-similar to it (compared in
the code's direction, new normalized title against the kept one). -/
theorem C7_dedup_sublist (articles : List Article) (t : ℚ) :
    (deduplicate articles t).Sublist articles ∧
      (deduplicate articles t).head? = articles.head? ∧
      ∀ x ∈ articles, x ∉ deduplicate articles t →
        ∃ y ∈ deduplicate articles t,
          t ≤ ratio (normalizeTitle x.title) (normalizeTitle y.title) := by
  refine ⟨?_, ?_, ?_⟩
  · obtain ⟨sub, heq, hsub⟩ := dedupGo_shape t articles [] []
    rw [deduplicate, heq]
    simpa using hsub
  · cases articles with
    | nil => rfl
    | cons a rest =>
      rw [deduplicate, dedupGo, if_neg (by rw [isDup_nil]; simp)]
      obtain ⟨sub, heq, _⟩ := dedupGo_shape t rest ([] ++ [a])
        ([] ++ [normalizeTitle a.title])
      rw [heq]
      rfl
  · intro x hx hnot
    exact dedupGo_dropped t articles [] x hx hnot

/-- C7, witness: on the C4 article list at threshold `1/2`, the article
`cexC` is dropped, and the theorem yields a kept article similar to it. -/
theorem C7_witness :
    (cexC ∈ [cexA, cexB, cexC, cexD] ∧
        cexC ∉ deduplicate [cexA, cexB, cexC, cexD] (1 / 2)) ∧
      ∃ y ∈ deduplicate [cexA, cexB, cexC, cexD] (1 / 2),
        (1 / 2 : ℚ) ≤ ratio (normalizeTitle cexC.title) (normalizeTitle y.title) :=
  ⟨⟨by decide, by rw [ dedup_cex_half]; decide⟩,
    (C7_dedup_sublist [cexA, cexB, cexC, cexD] (1 / 2)).2.2 cexC (by decide)
      (by rw [ dedup_cex_half]; decide)⟩

/-! ## `summarize_batch` and `_summarize_extractive` (src/summarizer.py)

```python
def summarize_batch(articles: list[dict]) -> list[dict]:
    if not articles:
        return articles
    mode = config.SUMMARIZATION_MODE.lower()
    ...
```

`src/config.py` is the authority for the `config` module, and it defines
only the attributes listed in `configAttrs` below: it has **no**
`SUMMARIZATION_MODE`, `GEMINI_API_KEY` or `MAX_SUMMARY_SENTENCES`.
Consequently the very first statement after the empty-list guard,
`config.SUMMARIZATION_MODE.lower()`, raises `AttributeError` for every
non-empty input (the module-level `config.GEMINI_API_KEY` access likewise
makes the module fail to import whenever `google.generativeai` is
installed).  The mode dispatch that would follow a successful attribute
lookup is unreachable in this repository and is not modelled. -/

/-- The exception raised by the embedded Python code. -/
inductive PyError where
  | attributeError
deriving DecidableEq

/-- The module-level attributes defined by src/config.py. -/
def configAttrs : List String :=
  ["RSS_FEEDS", "RSS_MAX_ARTICLES", "TELEGRAM_BOT_TOKEN",
   "TELEGRAM_CHANNEL_ID", "SCHEDULE_HOUR", "SCHEDULE_MINUTE",
   "validate_config"]

/-- `summarize_batch` from src/summarizer.py, as a fallible function.  The
empty-list guard returns the (empty) input; on the non-empty path the
lookup of the missing `config.SUMMARIZATION_MODE` attribute raises. -/
def summarizeBatch (articles : List Article) : Except PyError (List Article) :=
  if articles.isEmpty then Except.ok articles
  else if configAttrs.contains "SUMMARIZATION_MODE" then
    Except.ok articles  -- unreachable: the attribute is absent from config.py
  else Except.error PyError.attributeError

/-- The ellipsis marker `"..."` appended by the truncation fallback. -/
def ellipsis : List Char := str "..."

/-- `_summarize_extractive` from src/summarizer.py (lines 114–128).  The
Sumy extraction engine (`LexRankSummarizer` over `config.MAX_SUMMARY_SENTENCES`
sentences, with its `try/except`) is a black-box collaborator, modelled as
an optional oracle: `none` stands for `PlaintextParser` being unavailable;
`some e` for an available engine, where `e text = none` models an
exception during extraction and `e text = some s` models a summary string
`s` (possibly empty, when extraction selects no sentences). -/
def summarizeExtractive (engine : Option (List Char → Option (List Char)))
    (text : List Char) : List Char :=
  if text = [] ∨ text.length < 100 ∨ engine.isNone then text.take 500 ++ ellipsis
  else
    match engine with
    | some e =>
      match e text with
      | some summary => if summary = [] then text.take 500 ++ ellipsis else summary
      | none => text.take 500 ++ ellipsis
    | none => text.take 500 ++ ellipsis

/-! ## Claim C5 -/

/-- C5, behaviour of `summarize_batch` on this repository's `config.py`:
the empty list is returned unchanged (as the claim states), but every
non-empty input raises `AttributeError`, because `config.py` does not
define `SUMMARIZATION_MODE` — so "condense never raises" is false of the
code.  The module's own `__main__` quick test crashes the same way. -/
theorem C5_summarize_batch (a : Article) (rest : List Article) :
    summarizeBatch [] = Except.ok [] ∧
      summarizeBatch (a :: rest) = Except.error PyError.attributeError := by
  constructor
  · rfl
  · rfl

/-! ## Claim C8 -/

/-- With no extraction engine available, the fallback truncation is taken
unconditionally. -/
theorem summarizeExtractive_none (text : List Char) :
    summarizeExtractive none text = text.take 500 ++ ellipsis := by
  rw [summarizeExtractive.eq_def]
  simp

theorem trunc_length_le (text : List Char) :
    (text.take 500 ++ ellipsis).length ≤ 503 := by
  have he : ellipsis.length = 3 := by decide
  rw [List.length_append, he, List.length_take]
  have h : min 500 text.length ≤ 500 := min_le_left _ _
  omega

/-- C8, counterexample.  The claim says the fallback output length never
exceeds the configured truncation budget (the fixed 500-character budget of
`text[:500]`).  It is false: the ellipsis marker is appended *after*
truncation, so a long body with no extraction engine yields 503
characters. -/
theorem C8_counterexample :
    ¬(summarizeExtractive none (List.replicate 600 'a')).length ≤ 500 := by
  rw [summarizeExtractive_none]
  simp [ellipsis, str, List.length_take]

/-- C8, amended.  Whenever the local fallback truncation path is taken
(empty or too-short body, no extraction engine, extraction raising, or
extraction yielding nothing), the resulting body length is at most the
truncation budget plus the three-character ellipsis marker: 503. -/
theorem C8_amended (engine : Option (List Char → Option (List Char)))
    (text : List Char)
    (hfall : text = [] ∨ text.length < 100 ∨ engine.isNone ∨
      (∃ e, engine = some e ∧ (e text = none ∨ e text = some []))) :
    (summarizeExtractive engine text).length ≤ 503 := by
  rw [summarizeExtractive.eq_def]
  split
  · exact trunc_length_le text
  · split
    · split
      · split
        · exact trunc_length_le text
        · exfalso
          rcases hfall with h | h | h | ⟨e2, he2, hres⟩ <;> simp_all
      · exact trunc_length_le text
    · exact trunc_length_le text

/-- C8, witness for the amended theorem at a concrete input. -/
theorem C8_witness :
    (([] : List Char) = [] ∨ ([] : List Char).length < 100 ∨
        (none : Option (List Char → Option (List Char))).isNone) ∧
      (summarizeExtractive none []).length ≤ 503 :=
  ⟨Or.inl rfl, C8_amended none [] (Or.inl rfl)⟩

/-! ## Claim C9 -/

/-- C9, counterexample.  The claim says re-applying the fallback
condensation to already-condensed text returns it unchanged.  It is false
for short bodies: each application appends another `"..."`. -/
theorem C9_counterexample :
    ¬summarizeExtractive none (summarizeExtractive none (str "ab")) =
        summarizeExtractive none (str "ab") := by
  decide

/-- C9, amended.  The truncation fallback is idempotent exactly on long
enough input: for bodies of at least 500 characters (the truncation
budget), applying the fallback twice equals applying it once; shorter
bodies gain an extra ellipsis marker on each application. -/
theorem C9_amended (text : List Char) (hlen : 500 ≤ text.length) :
    summarizeExtractive none (summarizeExtractive none text) =
      summarizeExtractive none text := by
  have hlen500 : (text.take 500).length = 500 := by
    simp [List.length_take]
    omega
  rw [summarizeExtractive_none, summarizeExtractive_none,
      List.take_append_eq_append_take, hlen500, List.take_take]
  simp

/-- C9, witness for the amended theorem at a concrete input. -/
theorem C9_witness :
    500 ≤ (List.replicate 500 'a').length ∧
      summarizeExtractive none (summarizeExtractive none (List.replicate 500 'a')) =
        summarizeExtractive none (List.replicate 500 'a') :=
  ⟨by simp, C9_amended (List.replicate 500 'a') (by simp)⟩
